import Mathlib

/-!
# Verification of the location-ranking engine

Shallow embedding of the core algorithms of the repository:

* `realistic_flow_network.py` — `RealisticFlowNetwork`, `RealisticFlowBuilder._build_simple_network`,
  and the Edmonds-Karp max-flow solver inside `analyze_realistic_flow`;
* `main__.py` — `ObjectiveCalculator.normalize`, `FilterManager`'s constraint filter chain,
  `CafeLocationOptimizer._calculate_final_scores` / `_adjust_weights_by_preferences`;
* `realistic_optimizer.py` — `RealisticOptimizer._find_pareto_optimal` and
  `RealisticOptimizer._calculate_target_match`.

Python `dict`s (insertion ordered) are embedded as association lists with
first-occurrence lookup and in-place update; Python `int` arithmetic is `Int`;
Python `float` scores/ratios are modelled as exact rationals `ℚ` (the numeric
claims under verification concern the algebraic contracts of the code, not
IEEE-754 rounding).
-/

namespace CafeOpt

set_option maxHeartbeats 1000000

abbrev Node := String

/-- Lookup of the first occurrence of a key in an association list,
mirroring Python `dict` access. -/
def alookup {β : Type} : List (Node × β) → Node → Option β
  | [], _ => none
  | (k, v) :: rest, x => if k = x then some v else alookup rest x

/-- Assignment `d[k] = v` on a Python dict: update the (first) existing entry
in place, otherwise append the new key at the end (insertion order). -/
def aset {β : Type} : List (Node × β) → Node → β → List (Node × β)
  | [], k, v => [(k, v)]
  | (k', v') :: rest, k, v =>
      if k' = k then (k, v) :: rest else (k', v') :: aset rest k v

def keysOf {β : Type} (l : List (Node × β)) : List Node := l.map (·.1)

/-- A nested dict `node -> node -> int`, as used for `graph`, `residual_graph`
and `flow_dict` in `realistic_flow_network.py`. -/
abbrev Graph := List (Node × List (Node × Int))

/-- The inner dict for node `u` (empty when absent, as with `defaultdict`). -/
def adj (g : Graph) (u : Node) : List (Node × Int) := (alookup g u).getD []

/-- `g[u][v]`, reading a missing entry as 0 (`defaultdict(int)` behaviour;
for the residual graph every entry that is ever read is present). -/
def edgeVal (g : Graph) (u v : Node) : Int := (alookup (adj g u) v).getD 0

/-- `v in g[u]` — key test on the inner dict. -/
def hasPair (g : Graph) (u v : Node) : Bool := (alookup (adj g u) v).isSome

/-- `g[u][v] = x`. -/
def setEdge (g : Graph) (u v : Node) (x : Int) : Graph :=
  aset g u (aset (adj g u) v x)

/-! ## `RealisticFlowNetwork` (realistic_flow_network.py, lines 14-62) -/

structure RealisticFlowNetwork where
  graph : Graph
  residual_graph : Graph
  nodes : List Node        -- Python `set`; modelled as a duplicate-free list
  edge_count : Nat
  total_capacity : Int
  data_sources : List (Node × (Int × String))
  deriving Repr

def emptyNetwork : RealisticFlowNetwork :=
  { graph := [], residual_graph := [], nodes := [], edge_count := 0,
    total_capacity := 0, data_sources := [] }

def addNodeIfAbsent (ns : List Node) (n : Node) : List Node :=
  if n ∈ ns then ns else ns ++ [n]

/-- `RealisticFlowNetwork.add_edge_with_source` (lines 25-47). -/
def add_edge_with_source (net : RealisticFlowNetwork) (u v : Node)
    (capacity : Int) (data_source : String) : RealisticFlowNetwork :=
  if capacity ≤ 0 then net
  else
    let g := setEdge net.graph u v capacity
    let r := setEdge net.residual_graph u v capacity
    let r := if hasPair r v u then r else setEdge r v u 0
    { graph := g
      residual_graph := r
      nodes := addNodeIfAbsent (addNodeIfAbsent net.nodes u) v
      edge_count := net.edge_count + 1
      total_capacity := net.total_capacity + capacity
      data_sources := aset net.data_sources (u ++ "->" ++ v) (capacity, data_source) }

/-- A network built by a sequence of `add_edge_with_source` calls starting from
a freshly constructed `RealisticFlowNetwork()`. -/
def buildNetwork (es : List (Node × Node × Int × String)) : RealisticFlowNetwork :=
  es.foldl (fun n e => add_edge_with_source n e.1 e.2.1 e.2.2.1 e.2.2.2) emptyNetwork

/-! ## BFS over the residual graph (analyze_realistic_flow, lines 238-256) -/

structure BfsSt where
  visited : List Node
  queue : List Node
  parent : List (Node × Node)
  found : Bool
  deriving Repr

/-- The inner `for v in network.residual_graph[u]` loop of `bfs`: scan the
neighbour entries of `u`, marking fresh positive-residual nodes, and stop as
soon as the sink is discovered (Python `return True`). -/
def bfsScan (sink u : Node) : List (Node × Int) → BfsSt → BfsSt
  | [], st => st
  | (v, c) :: rest, st =>
      if v ∈ st.visited ∨ c ≤ 0 then bfsScan sink u rest st
      else if v = sink then
        { st with visited := v :: st.visited, parent := aset st.parent v u, found := true }
      else
        bfsScan sink u rest
          { st with visited := v :: st.visited, queue := st.queue ++ [v],
                    parent := aset st.parent v u }

/-- The `while queue` loop of `bfs`.  The fuel only bounds the number of
dequeue steps (each node enters the queue at most once in Python, so any
fuel of at least the number of discoverable nodes is equivalent). -/
def bfsLoop (r : Graph) (sink : Node) : Nat → BfsSt → Option (List (Node × Node))
  | 0, _ => none
  | fuel + 1, st =>
      match st.queue with
      | [] => none
      | u :: qrest =>
          let st' := bfsScan sink u (adj r u) { st with queue := qrest }
          if st'.found then some st'.parent else bfsLoop r sink fuel st'

def bfsFuel (r : Graph) : Nat :=
  r.length + (r.map (fun p => p.2.length)).sum + 2

/-- `bfs(source, sink, parent)`: returns the filled parent map when an
augmenting path to `sink` exists, `none` otherwise. -/
def bfs (r : Graph) (source sink : Node) : Option (List (Node × Node)) :=
  bfsLoop r sink (bfsFuel r) { visited := [source], queue := [source], parent := [], found := false }

/-! ## Path reconstruction and augmentation (lines 264-283) -/

/-- Follow the parent pointers from `v` back to `source`, collecting the
nodes in order `[v, parent v, …, source]`.  This is the walk that both
`while s != source` loops in `edmonds_karp` traverse. -/
def extractChain (parent : List (Node × Node)) (source : Node) :
    Nat → Node → Option (List Node)
  | 0, _ => none
  | fuel + 1, v =>
      if v = source then some [v]
      else
        match alookup parent v with
        | none => none
        | some u => (extractChain parent source fuel u).map (v :: ·)

/-- The running minimum of `network.residual_graph[parent[s]][s]` along the
remainder of the walk. -/
def minAlong (r : Graph) : List Node → Int → Int
  | a :: b :: rest, m => minAlong r (b :: rest) (min m (edgeVal r b a))
  | _, m => m

/-- `path_flow`: the minimum residual capacity along the augmenting walk
(`float('inf')` start followed by `min` steps; the walk always has at least
one edge when it comes from a successful BFS). -/
def pathFlowOf (r : Graph) : List Node → Int
  | a :: b :: rest => minAlong r (b :: rest) (edgeVal r b a)
  | _ => 0

def addFlowVal (g : Graph) (u v : Node) (f : Int) : Graph :=
  setEdge g u v (edgeVal g u v + f)

/-- The flow-update loop `while v != source` walking `[sink, …, source]`:
for each step `u = parent[v]` it performs
`residual[u][v] -= f`, `residual[v][u] += f`, `flow_dict[u][v] += f`. -/
def augment (f : Int) : List Node → Graph → Graph → Graph × Graph
  | a :: b :: rest, r, flow =>
      augment f (b :: rest) (addFlowVal (addFlowVal r b a (-f)) a b f)
        (addFlowVal flow b a f)
  | _, r, flow => (r, flow)

structure EkResult where
  max_flow : Int
  flow_dict : Graph
  residual : Graph
  deriving Repr

/-- The `while bfs(...)` loop of `edmonds_karp`.  Fuel bounds the number of
augmenting iterations; in Python every iteration raises the total flow by at
least 1, so `total_capacity + 1` iterations always suffice. -/
def ekLoop (source sink : Node) : Nat → Graph → Graph → Int → EkResult
  | 0, r, flow, mf => { max_flow := mf, flow_dict := flow, residual := r }
  | fuel + 1, r, flow, mf =>
      match bfs r source sink with
      | none => { max_flow := mf, flow_dict := flow, residual := r }
      | some parent =>
          match extractChain parent source (parent.length + 1) sink with
          | none => { max_flow := mf, flow_dict := flow, residual := r }
          | some L =>
              let f := pathFlowOf r L
              let (r', flow') := augment f L r flow
              ekLoop source sink fuel r' flow' (mf + f)

/-- `edmonds_karp('SOURCE', 'SINK')` run on a network's residual graph. -/
def edmonds_karp (net : RealisticFlowNetwork) : EkResult :=
  ekLoop "SOURCE" "SINK" (net.total_capacity.toNat + 1) net.residual_graph [] 0

structure AnalyzeResult where
  max_flow : Int
  network : RealisticFlowNetwork
  deriving Repr

/-- `analyze_realistic_flow(network, locations)` (lines 232-334): runs
Edmonds-Karp on the network's residual graph and reports the maximum flow.
The solver mutates `network.residual_graph` in place; the mutated network is
returned explicitly here.  The per-area diagnostic dictionaries built from
`flow_dict` are reporting output not touched by any claim and are omitted. -/
def analyze_realistic_flow (net : RealisticFlowNetwork) : AnalyzeResult :=
  let res := edmonds_karp net
  { max_flow := res.max_flow, network := { net with residual_graph := res.residual } }

/-! ## `RealisticFlowBuilder._build_simple_network` (lines 135-151) -/

structure Location where
  area_name : Node
  population : List (Node × Int)
  commercial : List (Node × Int)
  deriving Repr

/-- `_build_simple_network`: per location add `SOURCE -> area` with capacity
`int(pop_max * 0.1)` and `area -> SINK` with capacity `int(payment_count / 30)`.
Both inputs are non-negative integers in the data model, so the truncating
float operations coincide with integer division by 10 resp. 30 up to the
representation of `0.1` (exact for all inputs below 2^49; the claims touching
this builder use an empty location list where the loop body never runs). -/
def build_simple_network (net : RealisticFlowNetwork) (locations : List Location) :
    RealisticFlowNetwork :=
  locations.foldl (fun n loc =>
    let pop_max := (alookup loc.population "population_max").getD 10000
    let n := add_edge_with_source n "SOURCE" loc.area_name (pop_max / 10) "인구 데이터"
    let payment_count := (alookup loc.commercial "area_payment_count").getD 1000
    add_edge_with_source n loc.area_name "SINK" (payment_count / 30) "결제 데이터") net

/-! ## Rational-valued association lists and list sums -/

def sumQ : List ℚ → ℚ
  | [] => 0
  | x :: rest => x + sumQ rest

def sumVals : List (Node × ℚ) → ℚ
  | [] => 0
  | p :: rest => p.2 + sumVals rest

/-- `d.get(k, 0)` on a numeric dict. -/
def getQ (l : List (Node × ℚ)) (k : Node) : ℚ := (alookup l k).getD 0

/-! ## `ObjectiveCalculator.normalize` (main__.py, lines 727-749)

Min-max normalisation.  The Python code loops over the objective names of the
first location's dict and fills `normalized[dong][obj_name]`; the nested dict
it produces has the locations in input order and, for each location, the
objective names in first-dict order, which is exactly the map below. -/

def listMinQ : List ℚ → ℚ
  | [] => 0
  | x :: xs => xs.foldl min x

def listMaxQ : List ℚ → ℚ
  | [] => 1
  | x :: xs => xs.foldl max x

def normalize (allObjectives : List (Node × List (Node × ℚ))) :
    List (Node × List (Node × ℚ)) :=
  match allObjectives with
  | [] => []
  | (_, first) :: _ =>
      let objective_names := keysOf first
      allObjectives.map (fun p =>
        (p.1, objective_names.map (fun nm =>
          let values := allObjectives.map (fun q => getQ q.2 nm)
          let min_val := listMinQ values
          let max_val := listMaxQ values
          (nm, if min_val < max_val
               then (getQ p.2 nm - min_val) / (max_val - min_val)
               else 1/2))))

/-! ## Enums and user preferences (main__.py, lines 40-90 and 253-264) -/

inductive GenderTarget
  | FEMALE_CENTERED | MALE_CENTERED | BALANCED | ANY
  deriving DecidableEq, Repr

inductive CompetitionLevel
  | BLUE_OCEAN | MODERATE | COMPETITIVE | ANY
  deriving DecidableEq, Repr

inductive SubwayPreference
  | REQUIRED | PREFERRED | ANY
  deriving DecidableEq, Repr

inductive PeakTime
  | MORNING | LUNCH | AFTERNOON | EVENING | BALANCED
  deriving DecidableEq, Repr

inductive WeekdayPreference
  | WEEKDAY | WEEKEND | BALANCED
  deriving DecidableEq, Repr

inductive PriceRange
  | LOW | MID_LOW | MID | MID_HIGH | HIGH | ANY
  deriving DecidableEq, Repr

structure UserPreferences where
  min_revenue : Int := 2000
  max_revenue : Int := 50000
  gender_target : GenderTarget := GenderTarget.ANY
  competition : CompetitionLevel := CompetitionLevel.ANY
  subway : SubwayPreference := SubwayPreference.ANY
  peak_time : PeakTime := PeakTime.BALANCED
  weekday_preference : WeekdayPreference := WeekdayPreference.BALANCED
  price_range : PriceRange := PriceRange.ANY
  min_stores : Int := 3
  deriving Repr

/-! ## Sales / store / population data (main__.py, lines 199-251) -/

structure SalesData where
  revenue : ℚ
  sales_count : ℚ
  avg_price : ℚ
  female_revenue : ℚ := 0
  male_revenue : ℚ := 0
  weekday_revenue : ℚ := 0
  weekend_revenue : ℚ := 0
  morning_revenue : ℚ := 0
  lunch_revenue : ℚ := 0
  afternoon_revenue : ℚ := 0
  evening_revenue : ℚ := 0
  night_revenue : ℚ := 0
  deriving Repr

def SalesData.female_ratio (s : SalesData) : ℚ :=
  let total := s.female_revenue + s.male_revenue
  if total > 0 then s.female_revenue / total else 1/2

def SalesData.weekday_ratio (s : SalesData) : ℚ :=
  let total := s.weekday_revenue + s.weekend_revenue
  if total > 0 then s.weekday_revenue / total else 7/10

def SalesData.get_time_ratio (s : SalesData) (time_slot : String) : ℚ :=
  if s.revenue = 0 then 0
  else
    let time_revenues : List (Node × ℚ) :=
      [("morning", s.morning_revenue), ("lunch", s.lunch_revenue),
       ("afternoon", s.afternoon_revenue), ("evening", s.evening_revenue),
       ("night", s.night_revenue)]
    getQ time_revenues time_slot / s.revenue

structure StoreData where
  store_count : Int
  open_rate : ℚ
  close_rate : ℚ
  franchise_count : Int := 0
  deriving Repr

structure PopulationData where
  total_population : ℚ
  female_20_50 : ℚ
  male_20_50 : ℚ
  deriving Repr

def PopulationData.target_population (p : PopulationData) : ℚ :=
  p.female_20_50 + p.male_20_50

def PopulationData.female_ratio (p : PopulationData) : ℚ :=
  if p.target_population = 0 then 1/2
  else p.female_20_50 / p.target_population

/-! ## `DataStore` (main__.py, lines 1021-1066) -/

structure DataStore where
  sales_data : List (Node × SalesData) := []
  store_data : List (Node × StoreData) := []
  subway_data : List (Node × Bool) := []
  population_data : List (Node × PopulationData) := []

def DataStore.get_sales_data (ds : DataStore) (dong : Node) : Option SalesData :=
  alookup ds.sales_data dong

def DataStore.get_store_count (ds : DataStore) (dong : Node) : Int :=
  match alookup ds.store_data dong with
  | some sd => sd.store_count
  | none => 0

def DataStore.has_subway_access (ds : DataStore) (dong : Node) : Bool :=
  (alookup ds.subway_data dong).getD false

def DataStore.get_female_ratio (ds : DataStore) (dong : Node) : ℚ :=
  match ds.get_sales_data dong with
  | some s =>
      if s.female_revenue + s.male_revenue > 0 then s.female_ratio
      else match alookup ds.population_data dong with
           | some p => p.female_ratio
           | none => 1/2
  | none =>
      match alookup ds.population_data dong with
      | some p => p.female_ratio
      | none => 1/2

/-! ## `FilterManager` (main__.py, lines 790-1018)

Each `_filter_by_*` method below mirrors the corresponding Python method;
the `filter_criteria` constants come from `Config` (lines 140-168). -/

/-- `_filter_by_revenue` (lines 827-840).  Note: Python dereferences
`get_sales_data(dong).revenue` without a `None` check, so a candidate without
sales data raises `AttributeError`; such candidates are not modelled (the
predicate is `false` for them here, and no theorem exercises that case). -/
def filter_by_revenue (candidates : List Node) (prefs : UserPreferences)
    (ds : DataStore) : List Node :=
  let min_revenue_won : ℚ := (prefs.min_revenue * 10000 : Int)
  let max_revenue_won : ℚ := (prefs.max_revenue * 10000 : Int)
  candidates.filter (fun dong =>
    match ds.get_sales_data dong with
    | some s => decide (min_revenue_won ≤ s.revenue ∧ s.revenue ≤ max_revenue_won)
    | none => false)

/-- The loop body of `_filter_by_gender` (lines 842-870), i.e. the strict
selection before the `return filtered if filtered else candidates` fallback. -/
def genderCore (candidates : List Node) (prefs : UserPreferences)
    (ds : DataStore) : List Node :=
  candidates.filter (fun dong =>
    let female_ratio := ds.get_female_ratio dong
    match prefs.gender_target with
    | GenderTarget.FEMALE_CENTERED => decide (female_ratio ≥ 3/5)
    | GenderTarget.MALE_CENTERED => decide (female_ratio ≤ 2/5)
    | GenderTarget.BALANCED => decide (2/5 ≤ female_ratio ∧ female_ratio ≤ 3/5)
    | GenderTarget.ANY => false)

def filter_by_gender (candidates : List Node) (prefs : UserPreferences)
    (ds : DataStore) : List Node :=
  if prefs.gender_target = GenderTarget.ANY then candidates
  else
    let filtered := genderCore candidates prefs ds
    if filtered = [] then candidates else filtered

/-- The loop body of `_filter_by_competition` (lines 872-901). -/
def competitionCore (candidates : List Node) (prefs : UserPreferences)
    (ds : DataStore) : List Node :=
  candidates.filter (fun dong =>
    let store_count := ds.get_store_count dong
    match prefs.competition with
    | CompetitionLevel.BLUE_OCEAN => decide (0 ≤ store_count ∧ store_count ≤ 10)
    | CompetitionLevel.MODERATE => decide (11 ≤ store_count ∧ store_count ≤ 30)
    | CompetitionLevel.COMPETITIVE => decide (31 ≤ store_count ∧ store_count ≤ 50)
    | CompetitionLevel.ANY => false)

def filter_by_competition (candidates : List Node) (prefs : UserPreferences)
    (ds : DataStore) : List Node :=
  if prefs.competition = CompetitionLevel.ANY then candidates
  else
    let filtered := competitionCore candidates prefs ds
    if filtered = [] then candidates else filtered

/-- `_filter_by_subway` (lines 903-912): strict filtering when REQUIRED,
identity otherwise; no fail-open fallback. -/
def filter_by_subway (candidates : List Node) (prefs : UserPreferences)
    (ds : DataStore) : List Node :=
  if prefs.subway = SubwayPreference.REQUIRED then
    candidates.filter (fun dong => ds.has_subway_access dong)
  else candidates

def peakTimeSlot : PeakTime → Option String
  | PeakTime.MORNING => some "morning"
  | PeakTime.LUNCH => some "lunch"
  | PeakTime.AFTERNOON => some "afternoon"
  | PeakTime.EVENING => some "evening"
  | PeakTime.BALANCED => none

/-- The loop body of `_filter_by_peak_time` (lines 914-942) for a given slot. -/
def peakTimeCore (candidates : List Node) (ds : DataStore) (slot : String) : List Node :=
  candidates.filter (fun dong =>
    match ds.get_sales_data dong with
    | some s => decide (s.get_time_ratio slot ≥ 1/5)
    | none => false)

def filter_by_peak_time (candidates : List Node) (prefs : UserPreferences)
    (ds : DataStore) : List Node :=
  match peakTimeSlot prefs.peak_time with
  | none => candidates
  | some slot =>
      let filtered := peakTimeCore candidates ds slot
      if filtered = [] then candidates else filtered

/-- The loop body of `_filter_by_weekday` (lines 944-968). -/
def weekdayCore (candidates : List Node) (prefs : UserPreferences)
    (ds : DataStore) : List Node :=
  candidates.filter (fun dong =>
    match ds.get_sales_data dong with
    | some s =>
        match prefs.weekday_preference with
        | WeekdayPreference.WEEKDAY => decide (s.weekday_ratio ≥ 7/10)
        | WeekdayPreference.WEEKEND => decide (s.weekday_ratio ≤ 1/2)
        | WeekdayPreference.BALANCED => false
    | none => false)

def filter_by_weekday (candidates : List Node) (prefs : UserPreferences)
    (ds : DataStore) : List Node :=
  if prefs.weekday_preference = WeekdayPreference.BALANCED then candidates
  else
    let filtered := weekdayCore candidates prefs ds
    if filtered = [] then candidates else filtered

/-- `Config.filter_criteria['price_range']`; the `high` band's upper bound is
`float('inf')`, modelled as `none` (no upper bound). -/
def priceBand : PriceRange → Option (ℚ × Option ℚ)
  | PriceRange.LOW => some (0, some 5000)
  | PriceRange.MID_LOW => some (5001, some 8000)
  | PriceRange.MID => some (8001, some 12000)
  | PriceRange.MID_HIGH => some (12001, some 15000)
  | PriceRange.HIGH => some (15001, none)
  | PriceRange.ANY => none

/-- The loop body of `_filter_by_price` (lines 970-1006). -/
def priceCore (candidates : List Node) (ds : DataStore)
    (min_price : ℚ) (max_price : Option ℚ) : List Node :=
  candidates.filter (fun dong =>
    match ds.get_sales_data dong with
    | some s =>
        decide (min_price ≤ s.avg_price) &&
          (match max_price with
           | some mp => decide (s.avg_price ≤ mp)
           | none => true)
    | none => false)

def filter_by_price (candidates : List Node) (prefs : UserPreferences)
    (ds : DataStore) : List Node :=
  match priceBand prefs.price_range with
  | none => candidates
  | some (min_price, max_price) =>
      let filtered := priceCore candidates ds min_price max_price
      if filtered = [] then candidates else filtered

/-- `_filter_by_min_stores` (lines 1008-1018): a plain strict filter with no
fail-open fallback. -/
def filter_by_min_stores (candidates : List Node) (prefs : UserPreferences)
    (ds : DataStore) : List Node :=
  candidates.filter (fun dong => decide (ds.get_store_count dong ≥ prefs.min_stores))

/-- `FilterManager.apply_filters` (lines 799-825): the filter chain in order. -/
def apply_filters (candidates : List Node) (prefs : UserPreferences)
    (ds : DataStore) : List Node :=
  let f := filter_by_revenue candidates prefs ds
  let f := filter_by_gender f prefs ds
  let f := filter_by_competition f prefs ds
  let f := filter_by_subway f prefs ds
  let f := filter_by_peak_time f prefs ds
  let f := filter_by_weekday f prefs ds
  let f := filter_by_price f prefs ds
  filter_by_min_stores f prefs ds

/-! ## Stable sorting

Python `list.sort(key=…, reverse=True)` is a stable descending sort; it is
embedded as a stable insertion sort (equal keys keep their input order, each
element is placed after every earlier element whose key is at least as
large). -/

def insertDescBy {α : Type} (key : α → ℚ) (x : α) : List α → List α
  | [] => [x]
  | y :: ys => if key x ≤ key y then y :: insertDescBy key x ys else x :: y :: ys

def sortDescBy {α : Type} (key : α → ℚ) (l : List α) : List α :=
  l.foldl (fun acc x => insertDescBy key x acc) []

/-! ## `RealisticOptimizer._find_pareto_optimal` (realistic_optimizer.py, lines 333-364) -/

structure LocationScore where
  area_name : Node
  profitability : ℚ := 0
  stability : ℚ := 0
  accessibility : ℚ := 0
  network_efficiency : ℚ := 0
  population_score : ℚ := 0
  payment_activity_score : ℚ := 0
  target_match_score : ℚ := 0
  competition_score : ℚ := 0
  budget_fit_score : ℚ := 0
  gender_match_score : ℚ := 0
  area_type_score : ℚ := 0
  deriving DecidableEq, Repr

/-- The four-dimensional dominance test inlined in `_find_pareto_optimal`:
`loc2` dominates `loc1`. -/
def dominates (loc2 loc1 : LocationScore) : Bool :=
  decide (loc2.profitability ≥ loc1.profitability ∧
          loc2.stability ≥ loc1.stability ∧
          loc2.accessibility ≥ loc1.accessibility ∧
          loc2.network_efficiency ≥ loc1.network_efficiency) &&
  decide (loc2.profitability > loc1.profitability ∨
          loc2.stability > loc1.stability ∨
          loc2.accessibility > loc1.accessibility ∨
          loc2.network_efficiency > loc1.network_efficiency)

def locationTotal (x : LocationScore) : ℚ :=
  x.profitability + x.stability + x.accessibility + x.network_efficiency

def find_pareto_optimal (locations : List LocationScore) : List LocationScore :=
  let pareto := (locations.enum.filter (fun p =>
    !(locations.enum.any (fun q => decide (q.1 ≠ p.1) && dominates q.2 p.2)))).map (·.2)
  sortDescBy locationTotal pareto

/-! ## `RealisticOptimizer._calculate_target_match` (realistic_optimizer.py, lines 519-543)

`pop_data` is a dict read through `.get` with defaults; it is modelled as a
record carrying the same entries. -/

structure PopDict where
  age_distribution : List (Node × ℚ) := []
  resident_ratio : ℚ := 0
  non_resident_ratio : ℚ := 0
  deriving Repr

def calculate_target_match (pop_data : PopDict) (targets : List String) : ℚ :=
  let age_dist := fun k => getQ pop_data.age_distribution k
  let score : ℚ := 0
  let count : Int := 0
  let score := if "직장인" ∈ targets
    then score + ((age_dist "20s" * (3/10) + age_dist "30s" * (3/10) +
                   age_dist "40s" * (2/10)) * (8/10) +
                  pop_data.non_resident_ratio * (2/10))
    else score
  let count := if "직장인" ∈ targets then count + 1 else count
  let score := if "학생" ∈ targets
    then score + (age_dist "10s" * (2/10) + age_dist "20s" * (8/10))
    else score
  let count := if "학생" ∈ targets then count + 1 else count
  let score := if "주민" ∈ targets then score + pop_data.resident_ratio else score
  let count := if "주민" ∈ targets then count + 1 else count
  let score := if "관광객" ∈ targets then score + pop_data.non_resident_ratio else score
  let count := if "관광객" ∈ targets then count + 1 else count
  if count > 0 then score / (count : ℚ) else 0

/-! ## Final scoring (main__.py, lines 1699-1745) -/

/-- `Config.weights` (lines 105-112). -/
def configWeights : List (Node × ℚ) :=
  [("수익성", 3/10), ("안정성", 2/10), ("접근성", 15/100),
   ("효율성", 15/100), ("출근시간효율", 1/10), ("주중비율", 1/10)]

/-- `_adjust_weights_by_preferences` (lines 1719-1745). -/
def adjust_weights_by_preferences (prefs : UserPreferences) : List (Node × ℚ) :=
  let weights := configWeights
  let weights :=
    match prefs.subway with
    | SubwayPreference.REQUIRED => aset (aset weights "접근성" (25/100)) "수익성" (25/100)
    | SubwayPreference.PREFERRED => aset weights "접근성" (2/10)
    | SubwayPreference.ANY => weights
  let weights :=
    match prefs.peak_time with
    | PeakTime.MORNING => aset (aset weights "출근시간효율" (2/10)) "효율성" (1/10)
    | _ => weights
  let weights :=
    match prefs.weekday_preference with
    | WeekdayPreference.WEEKDAY => aset (aset weights "주중비율" (2/10)) "출근시간효율" (5/100)
    | _ => weights
  let total := sumVals weights
  weights.map (fun p => (p.1, p.2 / total))

/-- The weighted score of one candidate in `_calculate_final_scores`. -/
def finalScoreOf (normalized : List (Node × List (Node × ℚ)))
    (weights : List (Node × ℚ)) (dong : Node) : ℚ :=
  sumQ (weights.map (fun p => getQ ((alookup normalized dong).getD []) p.1 * p.2))

/-- `_calculate_final_scores` (lines 1699-1717): score each candidate and
sort descending by score (`scores.sort(key=lambda x: x[1], reverse=True)`). -/
def calculate_final_scores (candidates : List Node)
    (normalized : List (Node × List (Node × ℚ))) (prefs : UserPreferences) :
    List (Node × ℚ) :=
  let weights := adjust_weights_by_preferences prefs
  let scores := candidates.map (fun dong => (dong, finalScoreOf normalized weights dong))
  sortDescBy (·.2) scores

/-! ## Verification-layer definitions

Executable observables of the embedded state (sums of recorded flow, walk
step counters, well-formedness of the dict-of-dict graphs) and the BFS
invariant used to prove correctness of the solver. -/

/-- Sum of the values of an integer dict. -/
def sumValsI : List (Node × Int) → Int
  | [] => 0
  | p :: rest => p.2 + sumValsI rest

/-- Total recorded flow entering `w`: the sum of `g[u][w]` over all outer
entries `u` of the flow dict. -/
def sumInto (w : Node) : Graph → Int
  | [] => 0
  | p :: rest => (alookup p.2 w).getD 0 + sumInto w rest

/-- Total recorded flow leaving `w`: the sum of the inner dict `g[w]`. -/
def sumOut (g : Graph) (w : Node) : Int := sumValsI (adj g w)

/-- Number of steps of the augmenting walk `[v₀, v₁, …]` that push along the
residual edge `u -> v` (i.e. steps with `parent` node `u` and child `v`). -/
def cntE (u v : Node) : List Node → Int
  | a :: b :: rest => (if b = u ∧ a = v then 1 else 0) + cntE u v (b :: rest)
  | _ => 0

/-- Number of walk steps whose updated flow edge points into `w`. -/
def cntIn (w : Node) : List Node → Int
  | a :: b :: rest => (if a = w then 1 else 0) + cntIn w (b :: rest)
  | _ => 0

/-- Number of walk steps whose updated flow edge leaves `w`. -/
def cntOut (w : Node) : List Node → Int
  | a :: b :: rest => (if b = w then 1 else 0) + cntOut w (b :: rest)
  | _ => 0

/-- The final node of `x :: l`. -/
def lastOfN (x : Node) : List Node → Node
  | [] => x
  | y :: ys => lastOfN y ys

/-- Every step of the walk follows a residual edge of strictly positive
capacity (the condition BFS checks when it records a parent pointer). -/
def edgesPositive (r : Graph) : List Node → Prop
  | a :: b :: rest => 0 < edgeVal r b a ∧ edgesPositive r (b :: rest)
  | _ => True

/-- Well-formedness of an embedded dict-of-dicts: inner key lists are
duplicate-free (Python dicts cannot hold duplicate keys). -/
def GWF (g : Graph) : Prop := ∀ p ∈ g, (keysOf p.2).Nodup

/-- A valid recorded search path: following the parent pointers from `v`
reaches `source`, visiting pairwise-distinct visited nodes along residual
edges of positive capacity. -/
def goodChain (r : Graph) (parent : List (Node × Node)) (source : Node)
    (visited : List Node) (v : Node) : Prop :=
  ∃ L, extractChain parent source L.length v = some L ∧
       L.length ≤ parent.length + 1 ∧ L.Nodup ∧
       (∀ x ∈ L, x ∈ visited) ∧ edgesPositive r L

/-- Invariant of the BFS worklist loop. -/
def BfsInv (r : Graph) (source sink : Node) (st : BfsSt) : Prop :=
  source ∈ st.visited ∧
  (∀ q ∈ st.queue, q ∈ st.visited) ∧
  (∀ p ∈ st.parent, p.1 ∈ st.visited) ∧
  (∀ v ∈ st.visited, goodChain r st.parent source st.visited v) ∧
  (st.found = true → sink ∈ st.visited)

/-! ## Concrete instances used by counterexamples and witnesses -/

/-- Edge list of a network on which the BFS-ordered Edmonds-Karp run must
cancel flow: the first augmenting path is SOURCE→A→B→SINK, the second is
SOURCE→C→B⇝A→D→SINK using the reverse residual edge B⇝A. -/
def cancelEdges : List (Node × Node × Int × String) :=
  [("SOURCE", "A", 1, "실제 이동 데이터"), ("A", "B", 1, "실제 이동 데이터"),
   ("B", "SINK", 1, "실제 결제건수 데이터"), ("SOURCE", "C", 1, "실제 이동 데이터"),
   ("C", "B", 1, "실제 이동 데이터"), ("A", "D", 1, "실제 이동 데이터"),
   ("D", "SINK", 1, "실제 결제건수 데이터")]

def cancelNet : RealisticFlowNetwork := buildNetwork cancelEdges

/-- The two-path network of the max-flow optimality test:
SOURCE→A(10)→SINK(10) and SOURCE→B(5)→SINK(5), no A-B edge. -/
def twoPathNet : RealisticFlowNetwork := buildNetwork
  [("SOURCE", "A", 10, "인구 데이터"), ("A", "SINK", 10, "결제 데이터"),
   ("SOURCE", "B", 5, "인구 데이터"), ("B", "SINK", 5, "결제 데이터")]

/-- Two mutually non-dominating location scores (used as a Pareto witness). -/
def paretoHighProfit : LocationScore :=
  { area_name := "강남역", profitability := 80, stability := 10,
    accessibility := 50, network_efficiency := 20 }

def paretoHighStability : LocationScore :=
  { area_name := "홍대입구역", profitability := 20, stability := 70,
    accessibility := 50, network_efficiency := 30 }

/-! ## Association-list lemmas -/

theorem alookup_aset_self {β : Type} (l : List (Node × β)) (k : Node) (v : β) :
    alookup (aset l k v) k = some v := by
  induction l with
  | nil => simp [aset, alookup]
  | cons p rest ih =>
      by_cases h : p.1 = k
      · simp [aset, h, alookup]
      · simp [aset, h, alookup, ih]

theorem alookup_aset_ne {β : Type} (l : List (Node × β)) (k x : Node) (v : β)
    (hx : x ≠ k) : alookup (aset l k v) x = alookup l x := by
  have hkx : ¬ (k = x) := fun h => hx h.symm
  induction l with
  | nil => simp [aset, alookup, hkx]
  | cons p rest ih =>
      by_cases h : p.1 = k
      · simp [aset, h, alookup, hkx]
      · simp [aset, h, alookup, ih]

theorem alookup_mem {β : Type} {l : List (Node × β)} {k : Node} {v : β}
    (h : alookup l k = some v) : (k, v) ∈ l := by
  induction l with
  | nil => simp [alookup] at h
  | cons p rest ih =>
      rcases p with ⟨a, b⟩
      by_cases hk : a = k
      · simp only [alookup, hk, if_true, Option.some.injEq] at h
        subst hk; subst h
        exact List.mem_cons_self _ _
      · simp only [alookup, hk, if_false] at h
        exact List.mem_cons_of_mem _ (ih h)

theorem alookup_of_mem_nodup {β : Type} {l : List (Node × β)} {k : Node} {v : β}
    (hnd : (keysOf l).Nodup) (h : (k, v) ∈ l) : alookup l k = some v := by
  induction l with
  | nil => simp at h
  | cons p rest ih =>
      simp only [keysOf, List.map_cons, List.nodup_cons] at hnd
      rcases List.mem_cons.1 h with h1 | h1
      · rw [← h1]
        simp [alookup]
      · have hk : p.1 ≠ k := by
          intro he
          exact hnd.1 (he ▸ (List.mem_map.2 ⟨(k, v), h1, rfl⟩))
        simp only [alookup, hk, if_false]
        exact ih hnd.2 h1

theorem mem_aset {β : Type} {l : List (Node × β)} {k x : Node} {v w : β}
    (h : (x, w) ∈ aset l k v) : (x, w) ∈ l ∨ (x, w) = (k, v) := by
  induction l with
  | nil => simp [aset] at h; simp [h]
  | cons p rest ih =>
      by_cases hk : p.1 = k
      · simp only [aset, hk, if_true] at h
        rcases List.mem_cons.1 h with h1 | h1
        · right; exact h1
        · left; exact List.mem_cons_of_mem _ h1
      · simp only [aset, hk, if_false] at h
        rcases List.mem_cons.1 h with h1 | h1
        · left; exact h1 ▸ List.mem_cons_self _ _
        · rcases ih h1 with h2 | h2
          · left; exact List.mem_cons_of_mem _ h2
          · right; exact h2

theorem keysOf_aset_subset {β : Type} (l : List (Node × β)) (k : Node) (v : β) :
    ∀ x ∈ keysOf (aset l k v), x ∈ keysOf l ∨ x = k := by
  intro x hx
  simp only [keysOf, List.mem_map] at hx
  obtain ⟨⟨a, b⟩, hp, hpx⟩ := hx
  rcases mem_aset hp with h | h
  · left; exact List.mem_map.2 ⟨(a, b), h, hpx⟩
  · right
    cases h
    simpa using hpx.symm

theorem length_le_aset {β : Type} (l : List (Node × β)) (k : Node) (v : β) :
    l.length ≤ (aset l k v).length := by
  induction l with
  | nil => simp [aset]
  | cons p rest ih =>
      by_cases h : p.1 = k
      · simp [aset, h]
      · simpa [aset, h] using ih

theorem length_aset_fresh {β : Type} {l : List (Node × β)} {k : Node} (v : β)
    (hk : k ∉ keysOf l) : (aset l k v).length = l.length + 1 := by
  induction l with
  | nil => simp [aset]
  | cons p rest ih =>
      simp only [keysOf, List.map_cons, List.mem_cons] at hk
      push_neg at hk
      have h : p.1 ≠ k := fun he => hk.1 he.symm
      simp only [aset, h, if_false, List.length_cons]
      rw [ih hk.2]

theorem keysOf_aset_nodup {β : Type} {l : List (Node × β)} (k : Node) (v : β)
    (hnd : (keysOf l).Nodup) : (keysOf (aset l k v)).Nodup := by
  induction l with
  | nil => simp [aset, keysOf]
  | cons p rest ih =>
      simp only [keysOf, List.map_cons, List.nodup_cons] at hnd
      by_cases h : p.1 = k
      · simp only [aset, h, if_true, keysOf, List.map_cons, List.nodup_cons]
        exact ⟨h ▸ hnd.1, hnd.2⟩
      · simp only [aset, h, if_false, keysOf, List.map_cons, List.nodup_cons]
        refine ⟨fun hc => ?_, ih hnd.2⟩
        rcases keysOf_aset_subset rest k v _ hc with h1 | h1
        · exact hnd.1 h1
        · exact h (h1 ▸ rfl)

/-! ## Pointwise behaviour of `setEdge` and `addFlowVal` -/

theorem adj_aset_self (g : Graph) (u : Node) (i : List (Node × Int)) :
    adj (aset g u i) u = i := by
  simp [adj, alookup_aset_self]

theorem adj_aset_ne (g : Graph) (u w : Node) (i : List (Node × Int)) (h : w ≠ u) :
    adj (aset g u i) w = adj g w := by
  simp [adj, alookup_aset_ne _ _ _ _ h]

theorem edgeVal_setEdge (g : Graph) (x y : Node) (c : Int) (u v : Node) :
    edgeVal (setEdge g x y c) u v = if x = u ∧ y = v then c else edgeVal g u v := by
  by_cases hu : u = x
  · subst hu
    rw [edgeVal, setEdge, adj_aset_self]
    by_cases hv : v = y
    · subst hv
      simp [alookup_aset_self]
    · have hyv : ¬ (y = v) := fun h => hv h.symm
      rw [alookup_aset_ne _ _ _ _ hv]
      simp [edgeVal, hyv]
  · have hx : ¬ (x = u ∧ y = v) := fun h => hu h.1.symm
    rw [edgeVal, setEdge, adj_aset_ne _ _ _ _ hu]
    simp [edgeVal, hx]

theorem edgeVal_addFlowVal (g : Graph) (x y : Node) (f0 : Int) (u v : Node) :
    edgeVal (addFlowVal g x y f0) u v
      = edgeVal g u v + (if x = u ∧ y = v then f0 else 0) := by
  rw [addFlowVal, edgeVal_setEdge]
  by_cases h : x = u ∧ y = v
  · rcases h with ⟨h1, h2⟩
    subst h1; subst h2
    simp
  · simp [h]

theorem hasPair_setEdge (g : Graph) (x y : Node) (c : Int) (u v : Node) :
    hasPair (setEdge g x y c) u v = if x = u ∧ y = v then true else hasPair g u v := by
  by_cases hu : u = x
  · subst hu
    rw [hasPair, setEdge, adj_aset_self]
    by_cases hv : v = y
    · subst hv; simp [alookup_aset_self]
    · have hyv : ¬ (y = v) := fun h => hv h.symm
      rw [alookup_aset_ne _ _ _ _ hv]
      simp [hasPair, hyv]
  · have hx : ¬ (x = u ∧ y = v) := fun h => hu h.1.symm
    rw [hasPair, setEdge, adj_aset_ne _ _ _ _ hu]
    simp [hasPair, hx]

theorem edgeVal_zero_of_not_hasPair {g : Graph} {u v : Node}
    (h : hasPair g u v = false) : edgeVal g u v = 0 := by
  rw [hasPair] at h
  rw [edgeVal]
  cases hl : alookup (adj g u) v with
  | none => simp
  | some c => rw [hl] at h; simp at h

/-! ## Well-formedness lemmas -/

theorem GWF_setEdge {g : Graph} (x y : Node) (c : Int) (hG : GWF g) :
    GWF (setEdge g x y c) := by
  intro p hp
  rcases p with ⟨a, l⟩
  rcases mem_aset hp with h | h
  · exact hG _ h
  · have hl : l = aset (adj g x) y c := congrArg Prod.snd h
    subst hl
    apply keysOf_aset_nodup
    rw [adj]
    cases hax : alookup g x with
    | none => simp [keysOf]
    | some i =>
        have := hG _ (alookup_mem hax)
        simpa using this

theorem GWF_addFlowVal {g : Graph} (x y : Node) (f0 : Int) (hG : GWF g) :
    GWF (addFlowVal g x y f0) := GWF_setEdge x y _ hG

theorem adj_accurate {r : Graph} (hG : GWF r) (u : Node) :
    ∀ p ∈ adj r u, edgeVal r u p.1 = p.2 := by
  intro p hp
  rcases p with ⟨v, c⟩
  rw [edgeVal]
  rw [adj] at hp ⊢
  cases hau : alookup r u with
  | none => rw [hau] at hp; simp at hp
  | some i =>
      rw [hau] at hp
      simp only [Option.getD_some] at hp ⊢
      have hnd : (keysOf i).Nodup := hG _ (alookup_mem hau)
      rw [alookup_of_mem_nodup hnd hp]
      rfl

/-! ## Sum-delta lemmas: one `+=` on a flow dict -/

theorem getD_aset_add (l : List (Node × Int)) (y w : Node) (f0 : Int) :
    (alookup (aset l y ((alookup l y).getD 0 + f0)) w).getD 0
      = (alookup l w).getD 0 + (if y = w then f0 else 0) := by
  by_cases h : w = y
  · subst h
    rw [alookup_aset_self]
    simp
  · have hyw : ¬ (y = w) := fun he => h he.symm
    rw [alookup_aset_ne _ _ _ _ h]
    simp [hyw]

theorem sumValsI_aset_add (l : List (Node × Int)) (y : Node) (f0 : Int) :
    sumValsI (aset l y ((alookup l y).getD 0 + f0)) = sumValsI l + f0 := by
  induction l with
  | nil => simp [aset, sumValsI, alookup]
  | cons p rest ih =>
      rcases p with ⟨a, b⟩
      by_cases h : a = y
      · subst h
        simp only [aset, if_true, alookup, sumValsI]
        simp only [Option.getD_some]
        ring
      · simp only [aset, h, if_false, alookup, sumValsI]
        rw [ih]
        ring

theorem sumInto_addFlowVal (g : Graph) (x y : Node) (f0 : Int) (w : Node) :
    sumInto w (addFlowVal g x y f0) = sumInto w g + (if y = w then f0 else 0) := by
  rw [addFlowVal, setEdge]
  induction g with
  | nil =>
      by_cases h : y = w <;>
        simp [aset, sumInto, adj, alookup, edgeVal, h]
  | cons p rest ih =>
      rcases p with ⟨a, l⟩
      by_cases h : a = x
      · subst h
        simp only [aset, if_true, sumInto]
        have hadj : adj ((a, l) :: rest) a = l := by simp [adj, alookup]
        rw [hadj]
        have hev : edgeVal ((a, l) :: rest) a y = (alookup l y).getD 0 := by
          simp [edgeVal, hadj]
        rw [hev, getD_aset_add]
        ring
      · simp only [aset, h, if_false, sumInto]
        have hadj : adj ((a, l) :: rest) x = adj rest x := by
          simp [adj, alookup, h]
        have hev : edgeVal ((a, l) :: rest) x y = edgeVal rest x y := by
          simp [edgeVal, hadj]
        rw [hadj, hev] at *
        rw [ih]
        ring

theorem sumOut_addFlowVal (g : Graph) (x y : Node) (f0 : Int) (w : Node) :
    sumOut (addFlowVal g x y f0) w = sumOut g w + (if x = w then f0 else 0) := by
  rw [sumOut, sumOut, addFlowVal, setEdge]
  by_cases h : w = x
  · subst h
    rw [adj_aset_self]
    rw [edgeVal, sumValsI_aset_add]
    simp
  · have hxw : ¬ (x = w) := fun he => h he.symm
    rw [adj_aset_ne _ _ _ _ h]
    simp [hxw]

/-! ## Walk-counter lemmas -/

theorem cntE_nonneg (u v : Node) : ∀ L : List Node, 0 ≤ cntE u v L := by
  intro L
  induction L with
  | nil => simp [cntE]
  | cons a L ih =>
      cases L with
      | nil => simp [cntE]
      | cons b rest =>
          rw [cntE]
          have := ih
          split <;> omega

theorem cntE_mem (u v : Node) : ∀ L : List Node, cntE u v L ≠ 0 → u ∈ L ∧ v ∈ L := by
  intro L
  induction L with
  | nil => simp [cntE]
  | cons a L ih =>
      cases L with
      | nil => simp [cntE]
      | cons b rest =>
          intro h
          rw [cntE] at h
          by_cases hi : b = u ∧ a = v
          · refine ⟨List.mem_cons_of_mem _ ?_, ?_⟩
            · exact hi.1 ▸ List.mem_cons_self _ _
            · exact hi.2 ▸ List.mem_cons_self _ _
          · simp only [hi, if_false, zero_add] at h
            rcases ih h with ⟨h1, h2⟩
            exact ⟨List.mem_cons_of_mem _ h1, List.mem_cons_of_mem _ h2⟩

theorem cntE_le_one (u v : Node) : ∀ L : List Node, L.Nodup → cntE u v L ≤ 1 := by
  intro L
  induction L with
  | nil => simp [cntE]
  | cons a L ih =>
      cases L with
      | nil => simp [cntE]
      | cons b rest =>
          intro hnd
          rw [cntE]
          rcases List.nodup_cons.1 hnd with ⟨ha, hnd2⟩
          by_cases hi : b = u ∧ a = v
          · have hz : cntE u v (b :: rest) = 0 := by
              by_contra hnz
              exact ha (hi.2 ▸ (cntE_mem u v _ hnz).2)
            have hone : (if b = u ∧ a = v then (1 : Int) else 0) = 1 := by simp [hi]
            rw [hone, hz]
            norm_num
          · have := ih hnd2
            simp only [hi, if_false, zero_add]
            exact this

theorem cnt_in_out (w : Node) : ∀ (L : List Node) (x : Node),
    cntIn w (x :: L) + (if lastOfN x L = w then 1 else 0)
      = cntOut w (x :: L) + (if x = w then 1 else 0) := by
  intro L
  induction L with
  | nil => intro x; simp [cntIn, cntOut, lastOfN]
  | cons y ys ih =>
      intro x
      have hIn : cntIn w (x :: y :: ys) = (if x = w then 1 else 0) + cntIn w (y :: ys) := rfl
      have hOut : cntOut w (x :: y :: ys) = (if y = w then 1 else 0) + cntOut w (y :: ys) := rfl
      have hLast : lastOfN x (y :: ys) = lastOfN y ys := rfl
      rw [hIn, hOut, hLast]
      have := ih y
      have hO : cntOut w (y :: ys) = cntIn w (y :: ys) + (if lastOfN y ys = w then 1 else 0)
          - (if y = w then 1 else 0) := by omega
      rw [hO]
      ring

/-! ## Path-flow lemmas -/

theorem minAlong_le_init (r : Graph) : ∀ (L : List Node) (m : Int), minAlong r L m ≤ m := by
  intro L
  induction L with
  | nil => intro m; simp [minAlong]
  | cons a L ih =>
      cases L with
      | nil => intro m; simp [minAlong]
      | cons b rest =>
          intro m
          rw [minAlong]
          exact le_trans (ih (min m (edgeVal r b a))) (min_le_left _ _)

theorem minAlong_le_edge (r : Graph) (u v : Node) :
    ∀ (L : List Node) (m : Int), cntE u v L ≠ 0 → minAlong r L m ≤ edgeVal r u v := by
  intro L
  induction L with
  | nil => intro m h; simp [cntE] at h
  | cons a L ih =>
      cases L with
      | nil => intro m h; simp [cntE] at h
      | cons b rest =>
          intro m h
          rw [cntE] at h
          rw [minAlong]
          by_cases hi : b = u ∧ a = v
          · calc minAlong r (b :: rest) (min m (edgeVal r b a))
                ≤ min m (edgeVal r b a) := minAlong_le_init r _ _
              _ ≤ edgeVal r b a := min_le_right _ _
              _ = edgeVal r u v := by rw [hi.1, hi.2]
          · simp only [hi, if_false, zero_add] at h
            exact ih _ h

theorem pathFlow_le_edge (r : Graph) (u v : Node) (L : List Node)
    (h : cntE u v L ≠ 0) : pathFlowOf r L ≤ edgeVal r u v := by
  cases L with
  | nil => simp [cntE] at h
  | cons a L =>
      cases L with
      | nil => simp [cntE] at h
      | cons b rest =>
          rw [cntE] at h
          rw [pathFlowOf]
          by_cases hi : b = u ∧ a = v
          · calc minAlong r (b :: rest) (edgeVal r b a)
                ≤ edgeVal r b a := minAlong_le_init r _ _
              _ = edgeVal r u v := by rw [hi.1, hi.2]
          · simp only [hi, if_false, zero_add] at h
            exact minAlong_le_edge r u v _ _ h

theorem minAlong_pos (r : Graph) :
    ∀ (L : List Node) (m : Int), edgesPositive r L → 0 < m → 0 < minAlong r L m := by
  intro L
  induction L with
  | nil => intro m _ hm; simpa [minAlong] using hm
  | cons a L ih =>
      cases L with
      | nil => intro m _ hm; simpa [minAlong] using hm
      | cons b rest =>
          intro m hE hm
          rcases hE with ⟨h1, h2⟩
          rw [minAlong]
          exact ih _ h2 (lt_min hm h1)

/-- On a walk produced by a successful BFS the path flow is at least 1
(positive integer residuals). -/
theorem pathFlow_nonneg (r : Graph) (L : List Node) (hE : edgesPositive r L) :
    0 ≤ pathFlowOf r L := by
  cases L with
  | nil => simp [pathFlowOf]
  | cons a L =>
      cases L with
      | nil => simp [pathFlowOf]
      | cons b rest =>
          rcases hE with ⟨h1, h2⟩
          rw [pathFlowOf]
          exact le_of_lt (minAlong_pos r _ _ h2 h1)

/-! ## Pointwise effect of one augmentation -/

theorem ite_and_swap {p q : Prop} [Decidable p] [Decidable q] (x y : Int) :
    (if p ∧ q then x else y) = (if q ∧ p then x else y) := by
  by_cases hp : p <;> by_cases hq : q <;> simp [hp, hq]

theorem augment_flow_val (f : Int) : ∀ (L : List Node) (r flow : Graph) (u v : Node),
    edgeVal (augment f L r flow).2 u v = edgeVal flow u v + f * cntE u v L := by
  intro L
  induction L with
  | nil => intro r flow u v; simp [augment, cntE]
  | cons a L ih =>
      cases L with
      | nil => intro r flow u v; simp [augment, cntE]
      | cons b rest =>
          intro r flow u v
          rw [augment, ih, edgeVal_addFlowVal, cntE]
          split <;> ring

theorem augment_resid_val (f : Int) : ∀ (L : List Node) (r flow : Graph) (u v : Node),
    edgeVal (augment f L r flow).1 u v
      = edgeVal r u v - f * cntE u v L + f * cntE v u L := by
  intro L
  induction L with
  | nil => intro r flow u v; simp [augment, cntE]
  | cons a L ih =>
      cases L with
      | nil => intro r flow u v; simp [augment, cntE]
      | cons b rest =>
          intro r flow u v
          rw [augment, ih, edgeVal_addFlowVal, edgeVal_addFlowVal]
          have hc1 : cntE u v (a :: b :: rest)
              = (if b = u ∧ a = v then 1 else 0) + cntE u v (b :: rest) := rfl
          have hc2 : cntE v u (a :: b :: rest)
              = (if b = v ∧ a = u then 1 else 0) + cntE v u (b :: rest) := rfl
          rw [hc1, hc2, ite_and_swap (p := a = u) (q := b = v)]
          by_cases h1 : b = u ∧ a = v <;> by_cases h2 : b = v ∧ a = u <;>
            simp [h1, h2] <;> first
            | ring1
            | (split_ifs <;> ring)

theorem augment_sumInto (f : Int) (w : Node) :
    ∀ (L : List Node) (r flow : Graph),
    sumInto w (augment f L r flow).2 = sumInto w flow + f * cntIn w L := by
  intro L
  induction L with
  | nil => intro r flow; simp [augment, cntIn]
  | cons a L ih =>
      cases L with
      | nil => intro r flow; simp [augment, cntIn]
      | cons b rest =>
          intro r flow
          rw [augment, ih, sumInto_addFlowVal]
          have hc : cntIn w (a :: b :: rest)
              = (if a = w then 1 else 0) + cntIn w (b :: rest) := rfl
          rw [hc]
          split <;> ring

theorem augment_sumOut (f : Int) (w : Node) :
    ∀ (L : List Node) (r flow : Graph),
    sumOut (augment f L r flow).2 w = sumOut flow w + f * cntOut w L := by
  intro L
  induction L with
  | nil => intro r flow; simp [augment, cntOut]
  | cons a L ih =>
      cases L with
      | nil => intro r flow; simp [augment, cntOut]
      | cons b rest =>
          intro r flow
          rw [augment, ih, sumOut_addFlowVal]
          have hc : cntOut w (a :: b :: rest)
              = (if b = w then 1 else 0) + cntOut w (b :: rest) := rfl
          rw [hc]
          split <;> ring

theorem GWF_augment (f : Int) : ∀ (L : List Node) (r flow : Graph),
    GWF r → GWF (augment f L r flow).1 := by
  intro L
  induction L with
  | nil => intro r flow hG; simpa [augment] using hG
  | cons a L ih =>
      cases L with
      | nil => intro r flow hG; simpa [augment] using hG
      | cons b rest =>
          intro r flow hG
          rw [augment]
          exact ih _ _ (GWF_addFlowVal _ _ _ (GWF_addFlowVal _ _ _ hG))

/-! ## Chain-extraction lemmas -/

theorem extract_succ_ne {parent : List (Node × Node)} {s : Node} {n : Nat}
    {v : Node} (hv : ¬ v = s) (L : List Node) :
    extractChain parent s (n + 1) v = some L ↔
    ∃ u Lu, alookup parent v = some u ∧ extractChain parent s n u = some Lu ∧
            L = v :: Lu := by
  rw [extractChain]
  simp only [hv, if_false]
  cases hp : alookup parent v with
  | none => simp
  | some u =>
      simp only [Option.map_eq_some', Option.some.injEq]
      constructor
      · rintro ⟨Lu, hLu, hL⟩
        exact ⟨u, Lu, rfl, hLu, hL.symm⟩
      · rintro ⟨u', Lu, hu', hLu, hL⟩
        cases hu'
        exact ⟨Lu, hLu, hL.symm⟩

theorem extract_mono (parent : List (Node × Node)) (s : Node) :
    ∀ (n : Nat) (v : Node) (L : List Node),
    extractChain parent s n v = some L → extractChain parent s (n + 1) v = some L := by
  intro n
  induction n with
  | zero => intro v L h; simp [extractChain] at h
  | succ n ih =>
      intro v L h
      by_cases hv : v = s
      · rw [extractChain] at h ⊢
        simpa [hv] using h
      · obtain ⟨u, Lu, hu, hLu, hL⟩ := (extract_succ_ne hv L).1 h
        exact (extract_succ_ne hv L).2 ⟨u, Lu, hu, ih u Lu hLu, hL⟩

theorem extract_le (parent : List (Node × Node)) (s : Node) {n m : Nat}
    (hnm : n ≤ m) {v : Node} {L : List Node}
    (h : extractChain parent s n v = some L) : extractChain parent s m v = some L := by
  induction hnm with
  | refl => exact h
  | step _ ih => exact extract_mono parent s _ _ _ ih

theorem extract_shape (parent : List (Node × Node)) (s : Node) :
    ∀ (n : Nat) (v : Node) (L : List Node),
    extractChain parent s n v = some L →
    ∃ L0, L = v :: L0 ∧ lastOfN v L0 = s := by
  intro n
  induction n with
  | zero => intro v L h; simp [extractChain] at h
  | succ n ih =>
      intro v L h
      by_cases hv : v = s
      · rw [extractChain] at h
        simp only [hv, if_true, Option.some.injEq] at h
        subst hv
        exact ⟨[], h.symm, rfl⟩
      · obtain ⟨u, Lu, _, hLu, hL⟩ := (extract_succ_ne hv L).1 h
        obtain ⟨Lu0, hLu0, hlast⟩ := ih u Lu hLu
        refine ⟨Lu, hL, ?_⟩
        rw [hLu0]
        simpa [lastOfN, hLu0] using hlast

theorem extract_aset_fresh (parent : List (Node × Node)) (s k u0 : Node) :
    ∀ (n : Nat) (v : Node) (L : List Node),
    extractChain parent s n v = some L → (∀ x ∈ L, x ≠ k) →
    extractChain (aset parent k u0) s n v = some L := by
  intro n
  induction n with
  | zero => intro v L h; simp [extractChain] at h
  | succ n ih =>
      intro v L h hL
      by_cases hv : v = s
      · rw [extractChain] at h ⊢
        simpa [hv] using h
      · obtain ⟨u, Lu, hu, hLu, hLeq⟩ := (extract_succ_ne hv L).1 h
        have hvk : v ≠ k := hL v (by rw [hLeq]; exact List.mem_cons_self _ _)
        have hLu' : ∀ x ∈ Lu, x ≠ k := fun x hx =>
          hL x (by rw [hLeq]; exact List.mem_cons_of_mem _ hx)
        refine (extract_succ_ne hv L).2 ⟨u, Lu, ?_, ih u Lu hLu hLu', hLeq⟩
        rw [alookup_aset_ne _ _ _ _ hvk]
        exact hu

/-! ## BFS invariant -/

theorem goodChain_extend {r : Graph} {parent : List (Node × Node)}
    {source : Node} {visited : List Node} {u v : Node}
    (hchains : ∀ w ∈ visited, goodChain r parent source visited w)
    (hkeys : ∀ p ∈ parent, p.1 ∈ visited)
    (hs : source ∈ visited) (hu : u ∈ visited) (hv : v ∉ visited)
    (hpos : 0 < edgeVal r u v) :
    ∀ w ∈ (v :: visited), goodChain r (aset parent v u) source (v :: visited) w := by
  have hfresh : v ∉ keysOf parent := by
    intro hc
    simp only [keysOf, List.mem_map] at hc
    obtain ⟨p, hp, hpv⟩ := hc
    exact hv (hpv ▸ hkeys p hp)
  have hlen : (aset parent v u).length = parent.length + 1 := length_aset_fresh u hfresh
  intro w hw
  rcases List.mem_cons.1 hw with hwv | hwvis
  · -- the newly discovered node: prepend it to u's chain
    subst hwv
    obtain ⟨Lu, hLu, hLulen, hLund, hLumem, hLupos⟩ := hchains u hu
    obtain ⟨Lu0, hLu0, _⟩ := extract_shape parent source _ u Lu hLu
    have hnotk : ∀ x ∈ Lu, x ≠ w := fun x hx he => hv (he ▸ hLumem x hx)
    have hLu' := extract_aset_fresh parent source w u _ u Lu hLu hnotk
    have hwns : w ≠ source := fun he => hv (he ▸ hs)
    refine ⟨w :: Lu, ?_, ?_, ?_, ?_, ?_⟩
    · rw [List.length_cons]
      exact (extract_succ_ne hwns _).2 ⟨u, Lu, alookup_aset_self _ _ _, hLu', rfl⟩
    · rw [List.length_cons, hlen]
      omega
    · exact List.nodup_cons.2 ⟨fun hc => hv (hLumem w hc), hLund⟩
    · intro x hx
      rcases List.mem_cons.1 hx with h1 | h1
      · exact h1 ▸ List.mem_cons_self _ _
      · exact List.mem_cons_of_mem _ (hLumem x h1)
    · rw [hLu0]
      exact ⟨hpos, hLu0 ▸ hLupos⟩
  · -- previously visited nodes keep their chains
    obtain ⟨Lw, hLw, hLwlen, hLwnd, hLwmem, hLwpos⟩ := hchains w hwvis
    have hnotk : ∀ x ∈ Lw, x ≠ v := fun x hx he => hv (he ▸ hLwmem x hx)
    refine ⟨Lw, extract_aset_fresh parent source v u _ w Lw hLw hnotk, ?_, hLwnd, ?_, hLwpos⟩
    · rw [hlen]; omega
    · exact fun x hx => List.mem_cons_of_mem _ (hLwmem x hx)

theorem bfsScan_inv {r : Graph} {source sink u : Node} :
    ∀ (ns : List (Node × Int)) (st : BfsSt),
    BfsInv r source sink st → u ∈ st.visited →
    (∀ p ∈ ns, edgeVal r u p.1 = p.2) →
    BfsInv r source sink (bfsScan sink u ns st) := by
  intro ns
  induction ns with
  | nil => intro st hInv _ _; simpa [bfsScan] using hInv
  | cons vc rest ih =>
      intro st hInv hu hacc
      rcases vc with ⟨v, c⟩
      obtain ⟨hs, hq, hk, hch, hf⟩ := hInv
      rw [bfsScan]
      by_cases hskip : v ∈ st.visited ∨ c ≤ 0
      · simp only [hskip, if_true]
        exact ih st ⟨hs, hq, hk, hch, hf⟩ hu (fun p hp => hacc p (List.mem_cons_of_mem _ hp))
      · simp only [hskip, if_false]
        push_neg at hskip
        obtain ⟨hvfresh, hcpos⟩ := hskip
        have hev : 0 < edgeVal r u v := by
          rw [hacc (v, c) (List.mem_cons_self _ _)]
          omega
        have hch' := goodChain_extend hch hk hs hu hvfresh hev
        by_cases hvs : v = sink
        · subst hvs
          rw [if_pos rfl]
          refine ⟨List.mem_cons_of_mem _ hs, ?_, ?_, ?_, ?_⟩
          · exact fun q hqm => List.mem_cons_of_mem _ (hq q hqm)
          · rintro ⟨pk, pu⟩ hp
            rcases mem_aset hp with h1 | h1
            · exact List.mem_cons_of_mem _ (hk _ h1)
            · have hpk : pk = v := congrArg Prod.fst h1
              rw [hpk]
              exact List.mem_cons_self _ _
          · exact hch'
          · intro _
            exact List.mem_cons_self _ _
        · simp only [hvs, if_false]
          refine ih _ ⟨List.mem_cons_of_mem _ hs, ?_, ?_, hch', ?_⟩
            (List.mem_cons_of_mem _ hu)
            (fun p hp => hacc p (List.mem_cons_of_mem _ hp))
          · intro q hqm
            rcases List.mem_append.1 hqm with h1 | h1
            · exact List.mem_cons_of_mem _ (hq q h1)
            · simp only [List.mem_singleton] at h1
              exact h1 ▸ List.mem_cons_self _ _
          · rintro ⟨pk, pu⟩ hp
            rcases mem_aset hp with h1 | h1
            · exact List.mem_cons_of_mem _ (hk _ h1)
            · have : pk = v := congrArg Prod.fst h1
              rw [this]
              exact List.mem_cons_self _ _
          · intro hfd
            exact List.mem_cons_of_mem _ (hf hfd)

theorem bfsLoop_spec {r : Graph} {source sink : Node} (hG : GWF r) :
    ∀ (fuel : Nat) (st : BfsSt) (parent : List (Node × Node)),
    BfsInv r source sink st → bfsLoop r sink fuel st = some parent →
    ∃ L, extractChain parent source (parent.length + 1) sink = some L ∧
         L.Nodup ∧ edgesPositive r L := by
  intro fuel
  induction fuel with
  | zero => intro st parent _ h; simp [bfsLoop] at h
  | succ fuel ih =>
      intro st parent hInv hrun
      rw [bfsLoop] at hrun
      cases hqs : st.queue with
      | nil => rw [hqs] at hrun; simp at hrun
      | cons u qrest =>
          rw [hqs] at hrun
          simp only at hrun
          have hu : u ∈ st.visited := hInv.2.1 u (hqs ▸ List.mem_cons_self _ _)
          have hInv0 : BfsInv r source sink { st with queue := qrest } := by
            obtain ⟨hs, hq, hk, hch, hf⟩ := hInv
            exact ⟨hs, fun q hqm => hq q (hqs ▸ List.mem_cons_of_mem _ hqm), hk, hch, hf⟩
          have hInv' := bfsScan_inv (adj r u) { st with queue := qrest } hInv0 hu
            (adj_accurate hG u)
          set st' := bfsScan sink u (adj r u) { st with queue := qrest } with hst'
          by_cases hfd : st'.found = true
          · rw [if_pos hfd] at hrun
            have hparent : st'.parent = parent := by
              simpa using hrun
            have hsink : sink ∈ st'.visited := hInv'.2.2.2.2 hfd
            obtain ⟨L, hL, hlen, hnd, _, hpos⟩ := hInv'.2.2.2.1 sink hsink
            refine ⟨L, ?_, hnd, hpos⟩
            rw [← hparent]
            exact extract_le st'.parent source (by omega) hL
          · rw [if_neg hfd] at hrun
            exact ih st' parent hInv' hrun

/-- Specification of a successful BFS: the returned parent map reconstructs,
within the fuel used by the solver, a duplicate-free walk whose steps all
follow positive residual edges. -/
theorem bfs_spec {r : Graph} {source sink : Node} (hG : GWF r)
    {parent : List (Node × Node)} (h : bfs r source sink = some parent) :
    ∃ L, extractChain parent source (parent.length + 1) sink = some L ∧
         L.Nodup ∧ edgesPositive r L := by
  refine bfsLoop_spec hG (bfsFuel r) _ parent ?_ h
  refine ⟨List.mem_cons_self _ _, ?_, ?_, ?_, ?_⟩
  · intro q hqm
    simpa using hqm
  · intro p hp
    simp at hp
  · intro v hvm
    simp only [List.mem_singleton] at hvm
    subst hvm
    exact ⟨[v], by simp [extractChain], by simp, by simp, by simp, by simp [edgesPositive]⟩
  · intro h
    simp at h

/-! ## The Edmonds-Karp loop invariant -/

theorem ekLoop_inv (source sink : Node) (cap : Graph) :
    ∀ (fuel : Nat) (r flow : Graph) (mf : Int),
    (∀ u v, edgeVal r u v = edgeVal cap u v - edgeVal flow u v + edgeVal flow v u) →
    (∀ u v, 0 ≤ edgeVal r u v) →
    (∀ w, w ≠ source → w ≠ sink → sumInto w flow = sumOut flow w) →
    GWF r →
    (∀ u v, edgeVal (ekLoop source sink fuel r flow mf).residual u v
        = edgeVal cap u v - edgeVal (ekLoop source sink fuel r flow mf).flow_dict u v
          + edgeVal (ekLoop source sink fuel r flow mf).flow_dict v u) ∧
    (∀ u v, 0 ≤ edgeVal (ekLoop source sink fuel r flow mf).residual u v) ∧
    (∀ w, w ≠ source → w ≠ sink →
        sumInto w (ekLoop source sink fuel r flow mf).flow_dict
          = sumOut (ekLoop source sink fuel r flow mf).flow_dict w) := by
  intro fuel
  induction fuel with
  | zero =>
      intro r flow mf hA hB hC _
      exact ⟨hA, hB, hC⟩
  | succ fuel ih =>
      intro r flow mf hA hB hC hG
      cases hbfs : bfs r source sink with
      | none =>
          rw [ekLoop, hbfs]
          exact ⟨hA, hB, hC⟩
      | some parent =>
          obtain ⟨L, hext, hnd, hposL⟩ := bfs_spec hG hbfs
          have hstep : ekLoop source sink (fuel + 1) r flow mf
              = ekLoop source sink fuel (augment (pathFlowOf r L) L r flow).1
                  (augment (pathFlowOf r L) L r flow).2 (mf + pathFlowOf r L) := by
            simp only [ekLoop, hbfs, hext]
          rw [hstep]
          set f := pathFlowOf r L with hf
          have hf0 : 0 ≤ f := pathFlow_nonneg r L hposL
          obtain ⟨L0, hL0, hlast⟩ := extract_shape parent source _ sink L hext
          refine ih _ _ _ ?_ ?_ ?_ (GWF_augment f L r flow hG)
          · intro u v
            rw [augment_resid_val, augment_flow_val, augment_flow_val, hA u v]
            ring
          · intro u v
            rw [augment_resid_val]
            have h1 : 0 ≤ cntE u v L := cntE_nonneg u v L
            have h2 : 0 ≤ cntE v u L := cntE_nonneg v u L
            have h3 : cntE u v L ≤ 1 := cntE_le_one u v L hnd
            have h4 : 0 ≤ f * cntE v u L := mul_nonneg hf0 h2
            by_cases hc : cntE u v L = 0
            · rw [hc]
              have := hB u v
              linarith
            · have hc1 : cntE u v L = 1 := by omega
              have hle : f ≤ edgeVal r u v := pathFlow_le_edge r u v L hc
              rw [hc1]
              linarith
          · intro w hw1 hw2
            rw [augment_sumInto, augment_sumOut, hC w hw1 hw2, hL0]
            have hcnt := cnt_in_out w L0 sink
            rw [hlast] at hcnt
            have hsw : ¬ (source = w) := fun h => hw1 h.symm
            have htw : ¬ (sink = w) := fun h => hw2 h.symm
            have hws : (if source = w then (1 : Int) else 0) = 0 := by simp [hsw]
            have hwt : (if sink = w then (1 : Int) else 0) = 0 := by simp [htw]
            rw [hws, hwt] at hcnt
            have hee : cntIn w (sink :: L0) = cntOut w (sink :: L0) := by omega
            rw [hee]

/-! ## Properties of the built network -/

theorem add_edge_props (net : RealisticFlowNetwork) (a b : Node) (c : Int) (ds : String)
    (h1 : ∀ u v, edgeVal net.residual_graph u v = edgeVal net.graph u v)
    (h2 : ∀ u v, 0 ≤ edgeVal net.graph u v)
    (h3 : GWF net.residual_graph) :
    (∀ u v, edgeVal (add_edge_with_source net a b c ds).residual_graph u v
        = edgeVal (add_edge_with_source net a b c ds).graph u v) ∧
    (∀ u v, 0 ≤ edgeVal (add_edge_with_source net a b c ds).graph u v) ∧
    GWF (add_edge_with_source net a b c ds).residual_graph := by
  by_cases hc : c ≤ 0
  · rw [add_edge_with_source, if_pos hc]
    exact ⟨h1, h2, h3⟩
  · rw [add_edge_with_source, if_neg hc]
    have hcpos : 0 < c := by omega
    set r1 := setEdge net.residual_graph a b c with hr1
    by_cases hp : hasPair r1 b a
    · simp only [hp, if_true]
      refine ⟨?_, ?_, GWF_setEdge _ _ _ h3⟩
      · intro u v
        rw [hr1, edgeVal_setEdge, edgeVal_setEdge]
        by_cases hca : a = u ∧ b = v <;> simp [hca, h1 u v]
      · intro u v
        rw [edgeVal_setEdge]
        by_cases hca : a = u ∧ b = v <;> simp [hca, h2 u v]
        omega
    · simp only [hp, Bool.false_eq_true, if_false]
      have hab : a ≠ b := by
        intro he
        apply hp
        rw [hr1, he, hasPair_setEdge]
        simp
      have hrba : edgeVal net.residual_graph b a = 0 := by
        apply edgeVal_zero_of_not_hasPair
        have := hp
        rw [hr1, hasPair_setEdge] at this
        have hcond : ¬ (a = b ∧ b = a) := fun hh => hab hh.1
        simpa [hcond] using this
      refine ⟨?_, ?_, GWF_setEdge _ _ _ (GWF_setEdge _ _ _ h3)⟩
      · intro u v
        rw [hr1, edgeVal_setEdge, edgeVal_setEdge, edgeVal_setEdge]
        by_cases hba : b = u ∧ a = v
        · obtain ⟨hbu, hav⟩ := hba
          subst hbu
          subst hav
          rw [if_pos ⟨rfl, rfl⟩, if_neg (fun hh => hab hh.1)]
          rw [← h1 b a]
          exact hrba.symm
        · rw [if_neg hba]
          by_cases hca : a = u ∧ b = v
          · rw [if_pos hca, if_pos hca]
          · rw [if_neg hca, if_neg hca]
            exact h1 u v
      · intro u v
        rw [edgeVal_setEdge]
        by_cases hca : a = u ∧ b = v <;> simp [hca, h2 u v]
        omega

theorem buildNetwork_props (es : List (Node × Node × Int × String)) :
    (∀ u v, edgeVal (buildNetwork es).residual_graph u v
        = edgeVal (buildNetwork es).graph u v) ∧
    (∀ u v, 0 ≤ edgeVal (buildNetwork es).graph u v) ∧
    GWF (buildNetwork es).residual_graph := by
  have hgen : ∀ (l : List (Node × Node × Int × String)) (net : RealisticFlowNetwork),
      ((∀ u v, edgeVal net.residual_graph u v = edgeVal net.graph u v) ∧
       (∀ u v, 0 ≤ edgeVal net.graph u v) ∧ GWF net.residual_graph) →
      ((∀ u v, edgeVal (l.foldl (fun n e => add_edge_with_source n e.1 e.2.1 e.2.2.1 e.2.2.2) net).residual_graph u v
          = edgeVal (l.foldl (fun n e => add_edge_with_source n e.1 e.2.1 e.2.2.1 e.2.2.2) net).graph u v) ∧
       (∀ u v, 0 ≤ edgeVal (l.foldl (fun n e => add_edge_with_source n e.1 e.2.1 e.2.2.1 e.2.2.2) net).graph u v) ∧
       GWF (l.foldl (fun n e => add_edge_with_source n e.1 e.2.1 e.2.2.1 e.2.2.2) net).residual_graph) := by
    intro l
    induction l with
    | nil => intro net h; simpa using h
    | cons e es ih =>
        intro net h
        exact ih _ (add_edge_props net e.1 e.2.1 e.2.2.1 e.2.2.2 h.1 h.2.1 h.2.2)
  refine hgen es emptyNetwork ⟨?_, ?_, ?_⟩
  · intro u v; rfl
  · intro u v
    show (0 : Int) ≤ 0
    omega
  · intro p hp
    simp [emptyNetwork] at hp

/-- The three solver invariants instantiated at a freshly built network. -/
theorem edmonds_karp_inv (es : List (Node × Node × Int × String)) :
    (∀ u v, edgeVal (edmonds_karp (buildNetwork es)).residual u v
        = edgeVal (buildNetwork es).graph u v
          - edgeVal (edmonds_karp (buildNetwork es)).flow_dict u v
          + edgeVal (edmonds_karp (buildNetwork es)).flow_dict v u) ∧
    (∀ u v, 0 ≤ edgeVal (edmonds_karp (buildNetwork es)).residual u v) ∧
    (∀ w, w ≠ "SOURCE" → w ≠ "SINK" →
        sumInto w (edmonds_karp (buildNetwork es)).flow_dict
          = sumOut (edmonds_karp (buildNetwork es)).flow_dict w) := by
  obtain ⟨h1, h2, h3⟩ := buildNetwork_props es
  refine ekLoop_inv "SOURCE" "SINK" (buildNetwork es).graph _ _ _ _ ?_ ?_ ?_ h3
  · intro u v
    have hz1 : edgeVal [] u v = 0 := rfl
    have hz2 : edgeVal [] v u = 0 := rfl
    rw [hz1, hz2, h1 u v]
    ring
  · intro u v
    rw [h1 u v]
    exact h2 u v
  · intro w _ _
    rfl

/-! ## Claims about the max-flow solver -/

/-- C1 (counterexample): the claim "the flow recorded for (u, v) is at most
the original capacity of the edge u->v (0 if no such edge)" fails on
`cancelNet`: the solver records one unit of flow on the pair (B, A) although
the built network has no B->A edge (capacity 0), because the second
augmenting path pushes through the reverse residual edge of A->B. -/
theorem ek_capacity_claim_cex :
    ¬ (edgeVal (edmonds_karp cancelNet).flow_dict "B" "A"
        ≤ edgeVal cancelNet.graph "B" "A") := by decide

/-- C1 (amended): for every built network and every ordered pair (u, v), the
net recorded flow `flow_dict[u][v] - flow_dict[v][u]` is at most the original
capacity of the edge u->v in the built network (0 if no such edge was
inserted).  The gross entry `flow_dict[u][v]` alone can exceed the capacity
when the solver cancels flow through a reverse residual edge. -/
theorem ek_net_flow_respects_capacity (es : List (Node × Node × Int × String))
    (u v : Node) :
    edgeVal (edmonds_karp (buildNetwork es)).flow_dict u v
      - edgeVal (edmonds_karp (buildNetwork es)).flow_dict v u
      ≤ edgeVal (buildNetwork es).graph u v := by
  obtain ⟨h1, h2, _⟩ := edmonds_karp_inv es
  have ha := h1 u v
  have hb := h2 u v
  linarith

/-- C2: flow conservation — in the flow assignment returned by the
Edmonds-Karp solver on any built network, every node other than SOURCE and
SINK has equal total recorded inflow and outflow. -/
theorem ek_flow_conservation (es : List (Node × Node × Int × String))
    (w : Node) (hw1 : w ≠ "SOURCE") (hw2 : w ≠ "SINK") :
    sumInto w (edmonds_karp (buildNetwork es)).flow_dict
      = sumOut (edmonds_karp (buildNetwork es)).flow_dict w :=
  (edmonds_karp_inv es).2.2 w hw1 hw2

/-- C2 (witness): conservation at the interior node A of the cancellation
network, where inflow = outflow = 2. -/
theorem ek_flow_conservation_witness :
    ("A" : Node) ≠ "SOURCE" ∧ ("A" : Node) ≠ "SINK" ∧
    sumInto "A" (edmonds_karp (buildNetwork cancelEdges)).flow_dict
      = sumOut (edmonds_karp (buildNetwork cancelEdges)).flow_dict "A" :=
  ⟨by decide, by decide,
    ek_flow_conservation cancelEdges "A" (by decide) (by decide)⟩

/-- C4: on the network SOURCE→A(10), A→SINK(10), SOURCE→B(5), B→SINK(5)
with no A-B edge, the solver returns a maximum flow of exactly 15. -/
theorem ek_two_path_max_flow :
    (analyze_realistic_flow twoPathNet).max_flow = 15 := by decide

/-- C5 (counterexample): building a flow network from an empty location list
does not leave SOURCE and SINK in the node set — `nodes` only gains members
through `add_edge_with_source`, so it stays empty. -/
theorem empty_build_nodes_cex :
    ¬ ("SOURCE" ∈ (build_simple_network emptyNetwork []).nodes ∧
       "SINK" ∈ (build_simple_network emptyNetwork []).nodes) := by decide

/-- C5 (amended): an empty location list yields a network with zero edges and
an empty node set (SOURCE/SINK are not recorded), and the max-flow solver on
that network returns 0 without failing. -/
theorem empty_build_amended :
    (build_simple_network emptyNetwork []).edge_count = 0 ∧
    (build_simple_network emptyNetwork []).nodes = [] ∧
    (analyze_realistic_flow (build_simple_network emptyNetwork [])).max_flow = 0 := by
  refine ⟨rfl, rfl, ?_⟩
  decide

/-- Once BFS finds no augmenting path, one more solver iteration returns the
state unchanged with flow value 0 accumulated. -/
theorem ekLoop_none (source sink : Node) (fuel : Nat) (r flow : Graph) (mf : Int)
    (h : bfs r source sink = none) :
    ekLoop source sink (fuel + 1) r flow mf
      = { max_flow := mf, flow_dict := flow, residual := r } := by
  rw [ekLoop, h]

/-- C10: `analyze_realistic_flow` consumes the residual state: it leaves
`graph`, `nodes`, `edge_count` and `total_capacity` unchanged (only
`residual_graph` is mutated), and — the first run having terminated with no
remaining augmenting path — a second call on the returned network reports a
maximum flow of 0, even when the first call returned a positive flow. -/
theorem analyze_frame_and_consumes (net : RealisticFlowNetwork) :
    (analyze_realistic_flow net).network.graph = net.graph ∧
    (analyze_realistic_flow net).network.nodes = net.nodes ∧
    (analyze_realistic_flow net).network.edge_count = net.edge_count ∧
    (analyze_realistic_flow net).network.total_capacity = net.total_capacity ∧
    (0 < (analyze_realistic_flow net).max_flow →
      bfs (analyze_realistic_flow net).network.residual_graph "SOURCE" "SINK" = none →
      (analyze_realistic_flow (analyze_realistic_flow net).network).max_flow = 0) := by
  refine ⟨rfl, rfl, rfl, rfl, ?_⟩
  intro _ hnone
  show (ekLoop "SOURCE" "SINK" _ _ [] 0).max_flow = 0
  rw [ekLoop_none _ _ _ _ _ _ hnone]

/-- C10 (witness): on the two-path network the first run routes 15 units,
its final residual graph admits no augmenting path, and the second run
returns 0. -/
theorem analyze_frame_and_consumes_witness :
    0 < (analyze_realistic_flow twoPathNet).max_flow ∧
    bfs (analyze_realistic_flow twoPathNet).network.residual_graph "SOURCE" "SINK" = none ∧
    (analyze_realistic_flow (analyze_realistic_flow twoPathNet).network).max_flow = 0 :=
  ⟨by decide, by decide,
    (analyze_frame_and_consumes twoPathNet).2.2.2.2 (by decide) (by decide)⟩

/-! ## Sorting and Pareto lemmas -/

theorem mem_insertDescBy {α : Type} (key : α → ℚ) (x y : α) :
    ∀ l : List α, y ∈ insertDescBy key x l ↔ y = x ∨ y ∈ l := by
  intro l
  induction l with
  | nil => simp [insertDescBy]
  | cons z zs ih =>
      rw [insertDescBy]
      by_cases h : key x ≤ key z
      · simp only [h, if_true, List.mem_cons, ih]
        tauto
      · simp only [h, if_false, List.mem_cons]

theorem mem_sortDescBy {α : Type} (key : α → ℚ) (y : α) (l : List α) :
    y ∈ sortDescBy key l ↔ y ∈ l := by
  have hgen : ∀ (l acc : List α),
      (y ∈ l.foldl (fun acc x => insertDescBy key x acc) acc ↔ y ∈ acc ∨ y ∈ l) := by
    intro l
    induction l with
    | nil => intro acc; simp
    | cons z zs ih =>
        intro acc
        rw [List.foldl_cons, ih, mem_insertDescBy]
        simp only [List.mem_cons]
        tauto
  rw [sortDescBy, hgen]
  simp

theorem enum_functional {α : Type} {l : List α} {i : Nat} {x y : α}
    (hx : (i, x) ∈ l.enum) (hy : (i, y) ∈ l.enum) : x = y := by
  rw [List.mk_mem_enum_iff_getElem?] at hx hy
  rw [hx] at hy
  exact Option.some.inj hy

/-- C6: Pareto non-domination — for any two distinct members A, B of the
Pareto-optimal output of `_find_pareto_optimal`, A does not dominate B
(dominance compares only profitability, stability, accessibility and
network_efficiency; all other fields of the score vector are ignored). -/
theorem pareto_no_domination (locations : List LocationScore)
    (A B : LocationScore) (hA : A ∈ find_pareto_optimal locations)
    (hB : B ∈ find_pareto_optimal locations) (hAB : A ≠ B) :
    dominates A B = false := by
  rw [find_pareto_optimal, mem_sortDescBy] at hA hB
  simp only [List.mem_map, List.mem_filter] at hA hB
  obtain ⟨⟨iA, A'⟩, ⟨hAin, _⟩, hAeq⟩ := hA
  obtain ⟨⟨iB, B'⟩, ⟨hBin, hBpred⟩, hBeq⟩ := hB
  simp only at hAeq hBeq
  subst hAeq
  subst hBeq
  have hidx : iA ≠ iB := by
    intro he
    exact hAB (enum_functional (he ▸ hAin) hBin)
  simp only [Bool.not_eq_eq_eq_not, Bool.not_true, List.any_eq_false] at hBpred
  have hq := hBpred (iA, A') hAin
  simp only [Bool.and_eq_true, decide_eq_true_eq, not_and] at hq
  cases hdom : dominates A' B'
  · rfl
  · exact absurd hdom (by simpa [hidx] using hq)

/-- C6 (witness): two incomparable score vectors both survive
`_find_pareto_optimal` and neither dominates the other. -/
theorem pareto_no_domination_witness :
    paretoHighProfit ∈ find_pareto_optimal [paretoHighProfit, paretoHighStability] ∧
    paretoHighStability ∈ find_pareto_optimal [paretoHighProfit, paretoHighStability] ∧
    paretoHighProfit ≠ paretoHighStability ∧
    dominates paretoHighProfit paretoHighStability = false := by
  have h1 : paretoHighProfit ∈ find_pareto_optimal [paretoHighProfit, paretoHighStability] := by
    rw [find_pareto_optimal, mem_sortDescBy]
    decide
  have h2 : paretoHighStability ∈ find_pareto_optimal [paretoHighProfit, paretoHighStability] := by
    rw [find_pareto_optimal, mem_sortDescBy]
    decide
  exact ⟨h1, h2, by decide,
    pareto_no_domination [paretoHighProfit, paretoHighStability] _ _ h1 h2 (by decide)⟩

/-! ## Normalizer lemmas -/

theorem foldl_min_le_init : ∀ (xs : List ℚ) (a : ℚ), xs.foldl min a ≤ a := by
  intro xs
  induction xs with
  | nil => intro a; simp
  | cons x xs ih =>
      intro a
      rw [List.foldl_cons]
      exact le_trans (ih (min a x)) (min_le_left _ _)

theorem foldl_min_le_mem : ∀ (xs : List ℚ) (a y : ℚ), y ∈ xs → xs.foldl min a ≤ y := by
  intro xs
  induction xs with
  | nil => intro a y h; simp at h
  | cons x xs ih =>
      intro a y h
      rw [List.foldl_cons]
      rcases List.mem_cons.1 h with h1 | h1
      · exact h1 ▸ le_trans (foldl_min_le_init _ _) (min_le_right _ _)
      · exact ih _ y h1

theorem listMinQ_le {y : ℚ} {l : List ℚ} (h : y ∈ l) : listMinQ l ≤ y := by
  cases l with
  | nil => simp at h
  | cons x xs =>
      rw [listMinQ]
      rcases List.mem_cons.1 h with h1 | h1
      · exact h1 ▸ foldl_min_le_init _ _
      · exact foldl_min_le_mem _ _ _ h1

theorem foldl_max_init_le : ∀ (xs : List ℚ) (a : ℚ), a ≤ xs.foldl max a := by
  intro xs
  induction xs with
  | nil => intro a; simp
  | cons x xs ih =>
      intro a
      rw [List.foldl_cons]
      exact le_trans (le_max_left _ _) (ih (max a x))

theorem foldl_max_mem_le : ∀ (xs : List ℚ) (a y : ℚ), y ∈ xs → y ≤ xs.foldl max a := by
  intro xs
  induction xs with
  | nil => intro a y h; simp at h
  | cons x xs ih =>
      intro a y h
      rw [List.foldl_cons]
      rcases List.mem_cons.1 h with h1 | h1
      · exact h1 ▸ le_trans (le_max_right _ _) (foldl_max_init_le _ _)
      · exact ih _ y h1

theorem le_listMaxQ {y : ℚ} {l : List ℚ} (h : y ∈ l) : y ≤ listMaxQ l := by
  cases l with
  | nil => simp at h
  | cons x xs =>
      rw [listMaxQ]
      rcases List.mem_cons.1 h with h1 | h1
      · exact h1 ▸ foldl_max_init_le _ _
      · exact foldl_max_mem_le _ _ _ h1

theorem alookup_map_keys {β : Type} (h : Node → β) (key : Node) :
    ∀ names : List Node, key ∈ names →
    alookup (names.map (fun nm => (nm, h nm))) key = some (h key) := by
  intro names
  induction names with
  | nil => intro hk; simp at hk
  | cons n ns ih =>
      intro hk
      by_cases hn : n = key
      · subst hn
        simp [alookup]
      · rcases List.mem_cons.1 hk with h1 | h1
        · exact absurd h1.symm hn
        · simp only [List.map_cons, alookup, hn, if_false]
          exact ih h1

theorem alookup_map_pairs {α β : Type} (g : Node × α → β) :
    ∀ (l : List (Node × α)) (k : Node) (x : α),
    (keysOf l).Nodup → (k, x) ∈ l →
    alookup (l.map (fun p => (p.1, g p))) k = some (g (k, x)) := by
  intro l
  induction l with
  | nil => intro k x _ h; simp at h
  | cons p rest ih =>
      intro k x hnd hmem
      simp only [keysOf, List.map_cons, List.nodup_cons] at hnd
      rcases List.mem_cons.1 hmem with h1 | h1
      · subst h1
        simp [alookup]
      · have hpk : p.1 ≠ k := by
          intro he
          exact hnd.1 (he ▸ List.mem_map.2 ⟨(k, x), h1, rfl⟩)
        simp only [List.map_cons, alookup, hpk, if_false]
        exact ih k x hnd.2 h1

/-- C7: the normalizer contract.  For a non-empty collection of objective
vectors (first location `(d0, first)`, remaining `rest`) with duplicate-free
location keys, and an objective key `nm` of the first vector present in every
vector, the normalized entry of any location `(dong, objs)` exists and equals
`(value - min) / (max - min)` over the candidate set when `max > min`, equals
exactly 1/2 when the key is degenerate (`max = min` — the only other case),
and always lies in [0, 1]. -/
theorem normalize_spec (d0 : Node) (first : List (Node × ℚ))
    (rest : List (Node × List (Node × ℚ)))
    (hnd : (keysOf ((d0, first) :: rest)).Nodup)
    (dong : Node) (objs : List (Node × ℚ))
    (hmem : (dong, objs) ∈ (d0, first) :: rest)
    (nm : Node) (hnm : nm ∈ keysOf first)
    (hall : ∀ p ∈ (d0, first) :: rest, nm ∈ keysOf p.2) :
    ∃ nv, alookup ((alookup (normalize ((d0, first) :: rest)) dong).getD []) nm
            = some nv ∧
      (listMinQ (((d0, first) :: rest).map (fun q => getQ q.2 nm))
          < listMaxQ (((d0, first) :: rest).map (fun q => getQ q.2 nm)) →
        nv = (getQ objs nm - listMinQ (((d0, first) :: rest).map (fun q => getQ q.2 nm)))
          / (listMaxQ (((d0, first) :: rest).map (fun q => getQ q.2 nm))
             - listMinQ (((d0, first) :: rest).map (fun q => getQ q.2 nm)))) ∧
      (¬ listMinQ (((d0, first) :: rest).map (fun q => getQ q.2 nm))
          < listMaxQ (((d0, first) :: rest).map (fun q => getQ q.2 nm)) →
        nv = 1/2) ∧
      0 ≤ nv ∧ nv ≤ 1 := by
  have hvmem : getQ objs nm ∈ ((d0, first) :: rest).map (fun q => getQ q.2 nm) :=
    List.mem_map.2 ⟨(dong, objs), hmem, rfl⟩
  set values := ((d0, first) :: rest).map (fun q => getQ q.2 nm) with hva
  have hmin : listMinQ values ≤ getQ objs nm := listMinQ_le hvmem
  have hmax : getQ objs nm ≤ listMaxQ values := le_listMaxQ hvmem
  have houter : alookup (normalize ((d0, first) :: rest)) dong
      = some ((keysOf first).map (fun nm' =>
          (nm', if listMinQ (((d0, first) :: rest).map (fun q => getQ q.2 nm'))
                   < listMaxQ (((d0, first) :: rest).map (fun q => getQ q.2 nm'))
                then (getQ objs nm' - listMinQ (((d0, first) :: rest).map (fun q => getQ q.2 nm')))
                  / (listMaxQ (((d0, first) :: rest).map (fun q => getQ q.2 nm'))
                     - listMinQ (((d0, first) :: rest).map (fun q => getQ q.2 nm')))
                else 1/2))) := by
    rw [normalize]
    exact alookup_map_pairs _ _ dong objs hnd hmem
  rw [houter]
  simp only [Option.getD_some]
  rw [alookup_map_keys _ nm _ hnm]
  refine ⟨_, rfl, ?_, ?_, ?_, ?_⟩
  · intro hlt
    rw [← hva, if_pos hlt]
  · intro hlt
    rw [← hva, if_neg hlt]
  · rw [← hva]
    split
    · next hlt =>
        apply div_nonneg
        · linarith
        · linarith
    · norm_num
  · rw [← hva]
    split
    · next hlt =>
        rw [div_le_one (by linarith)]
        linarith
    · norm_num

/-- C7 (witness): two locations, key "수익성" with values 4 and 8 (normalized
to 0 and 1) and degenerate key "안정성" (both 5, normalized to 1/2). -/
theorem normalize_spec_witness :
    (∃ nv, alookup ((alookup (normalize
        [("강남역", [("수익성", 4), ("안정성", 5)]),
         ("홍대입구역", [("수익성", 8), ("안정성", 5)])]) "홍대입구역").getD []) "수익성"
          = some nv ∧
      (listMinQ ([("강남역", [("수익성", (4:ℚ)), ("안정성", 5)]),
         ("홍대입구역", [("수익성", 8), ("안정성", 5)])].map (fun q => getQ q.2 "수익성"))
          < listMaxQ ([("강남역", [("수익성", (4:ℚ)), ("안정성", 5)]),
         ("홍대입구역", [("수익성", 8), ("안정성", 5)])].map (fun q => getQ q.2 "수익성")) →
        nv = (getQ [("수익성", (8:ℚ)), ("안정성", 5)] "수익성"
            - listMinQ ([("강남역", [("수익성", (4:ℚ)), ("안정성", 5)]),
               ("홍대입구역", [("수익성", 8), ("안정성", 5)])].map (fun q => getQ q.2 "수익성")))
          / (listMaxQ ([("강남역", [("수익성", (4:ℚ)), ("안정성", 5)]),
               ("홍대입구역", [("수익성", 8), ("안정성", 5)])].map (fun q => getQ q.2 "수익성"))
             - listMinQ ([("강남역", [("수익성", (4:ℚ)), ("안정성", 5)]),
               ("홍대입구역", [("수익성", 8), ("안정성", 5)])].map (fun q => getQ q.2 "수익성")))) ∧
      (¬ listMinQ ([("강남역", [("수익성", (4:ℚ)), ("안정성", 5)]),
         ("홍대입구역", [("수익성", 8), ("안정성", 5)])].map (fun q => getQ q.2 "수익성"))
          < listMaxQ ([("강남역", [("수익성", (4:ℚ)), ("안정성", 5)]),
         ("홍대입구역", [("수익성", 8), ("안정성", 5)])].map (fun q => getQ q.2 "수익성")) →
        nv = 1/2) ∧
      0 ≤ nv ∧ nv ≤ 1) :=
  normalize_spec "강남역" [("수익성", 4), ("안정성", 5)]
    [("홍대입구역", [("수익성", 8), ("안정성", 5)])]
    (by decide) "홍대입구역" [("수익성", 8), ("안정성", 5)]
    (by decide) "수익성" (by decide) (by decide)

/-! ## Target-match claims -/

/-- C8 (counterexample): with an empty list of requested segments the
target-match routine returns 0, not the neutral value 50 asserted by the
specification. -/
theorem target_match_empty_cex :
    calculate_target_match
      { age_distribution := [("20s", 40), ("30s", 30)],
        resident_ratio := 55, non_resident_ratio := 45 } [] ≠ 50 := by decide

/-- C8 (amended): for every demographic input, the target-match score with an
empty segment list is 0 (the `count > 0` guard fails and the routine falls
back to 0, not 50). -/
theorem target_match_empty_zero (pop_data : PopDict) :
    calculate_target_match pop_data [] = 0 := by
  simp [calculate_target_match]

/-! ## Constraint-filter claims -/

/-- C3 (counterexample): the revenue-range filter is a plain list
comprehension with no fail-open fallback — on a non-empty candidate list
whose only candidate falls outside the configured revenue range it returns
the empty list instead of its input. -/
theorem filter_fail_open_cex :
    (["명동"] : List Node) ≠ [] ∧
    filter_by_revenue ["명동"] {}
      { sales_data := [("명동", { revenue := 100, sales_count := 10, avg_price := 10 })] }
      = [] :=
  ⟨by decide, by decide⟩

/-- C3 (amended): the fail-open-on-total-elimination behaviour holds for the
gender, competition, peak-time, weekday/weekend and price-range filters
(whose strict selections fall back to the unchanged input when empty), but
not for the revenue-range, subway and minimum-store-count filters, which
return their strict — possibly empty — selection. -/
theorem filters_fail_open (c : List Node) (p : UserPreferences) (ds : DataStore)
    (hne : c ≠ []) :
    (genderCore c p ds = [] → filter_by_gender c p ds = c) ∧
    (competitionCore c p ds = [] → filter_by_competition c p ds = c) ∧
    (∀ slot, peakTimeSlot p.peak_time = some slot →
        peakTimeCore c ds slot = [] → filter_by_peak_time c p ds = c) ∧
    (weekdayCore c p ds = [] → filter_by_weekday c p ds = c) ∧
    (∀ mn mx, priceBand p.price_range = some (mn, mx) →
        priceCore c ds mn mx = [] → filter_by_price c p ds = c) := by
  refine ⟨?_, ?_, ?_, ?_, ?_⟩
  · intro hcore
    by_cases hA : p.gender_target = GenderTarget.ANY
    · simp [filter_by_gender, hA]
    · simp [filter_by_gender, hA, hcore]
  · intro hcore
    by_cases hA : p.competition = CompetitionLevel.ANY
    · simp [filter_by_competition, hA]
    · simp [filter_by_competition, hA, hcore]
  · intro slot hslot hcore
    rw [filter_by_peak_time, hslot]
    simp [hcore]
  · intro hcore
    by_cases hA : p.weekday_preference = WeekdayPreference.BALANCED
    · simp [filter_by_weekday, hA]
    · simp [filter_by_weekday, hA, hcore]
  · intro mn mx hband hcore
    rw [filter_by_price, hband]
    simp [hcore]

/-- C3 (witness): a gender-targeted request over a store with no demographic
data (neutral female ratio 1/2 < 3/5) strictly eliminates the only
candidate; the filter returns its input unchanged. -/
theorem filters_fail_open_witness :
    (["명동"] : List Node) ≠ [] ∧
    genderCore ["명동"] { gender_target := GenderTarget.FEMALE_CENTERED } {} = [] ∧
    filter_by_gender ["명동"] { gender_target := GenderTarget.FEMALE_CENTERED } {} = ["명동"] := by
  have hcore : genderCore ["명동"]
      { gender_target := GenderTarget.FEMALE_CENTERED } {} = [] := by
    norm_num [genderCore, DataStore.get_female_ratio, DataStore.get_sales_data,
      alookup, List.filter]
  exact ⟨by decide, hcore,
    (filters_fail_open ["명동"] { gender_target := GenderTarget.FEMALE_CENTERED } {}
      (by decide)).1 hcore⟩

/-! ## Ranker lemmas and claims -/

theorem pairwise_insertDescBy {α : Type} (key : α → ℚ) (x : α) :
    ∀ l : List α, l.Pairwise (fun a b => key b ≤ key a) →
    (insertDescBy key x l).Pairwise (fun a b => key b ≤ key a) := by
  intro l
  induction l with
  | nil => intro _; simp [insertDescBy]
  | cons z zs ih =>
      intro hp
      rw [insertDescBy]
      rcases List.pairwise_cons.1 hp with ⟨hz, hzs⟩
      by_cases h : key x ≤ key z
      · rw [if_pos h]
        refine List.pairwise_cons.2 ⟨?_, ih hzs⟩
        intro y hy
        rcases (mem_insertDescBy key x y zs).1 hy with h1 | h1
        · exact h1 ▸ h
        · exact hz y h1
      · rw [if_neg h]
        have hx : key z ≤ key x := le_of_not_le h
        refine List.pairwise_cons.2 ⟨?_, hp⟩
        intro y hy
        rcases List.mem_cons.1 hy with h1 | h1
        · exact h1 ▸ hx
        · exact le_trans (hz y h1) hx

theorem pairwise_sortDescBy {α : Type} (key : α → ℚ) (l : List α) :
    (sortDescBy key l).Pairwise (fun a b => key b ≤ key a) := by
  have hgen : ∀ (l acc : List α), acc.Pairwise (fun a b => key b ≤ key a) →
      (l.foldl (fun acc x => insertDescBy key x acc) acc).Pairwise
        (fun a b => key b ≤ key a) := by
    intro l
    induction l with
    | nil => intro acc h; simpa using h
    | cons x xs ih =>
        intro acc h
        rw [List.foldl_cons]
        exact ih _ (pairwise_insertDescBy key x acc h)
  exact hgen l [] (by simp)

theorem filter_key_nil_of_lt {α : Type} (key : α → ℚ) (x z : α) (zs : List α)
    (hp : (z :: zs).Pairwise (fun a b => key b ≤ key a)) (hlt : key z < key x) :
    (z :: zs).filter (fun y => decide (key y = key x)) = [] := by
  rw [List.filter_eq_nil_iff]
  intro a ha
  simp only [decide_eq_true_eq]
  intro he
  rcases List.mem_cons.1 ha with h1 | h1
  · rw [h1] at he
    exact absurd he (ne_of_lt hlt)
  · have := (List.pairwise_cons.1 hp).1 a h1
    rw [he] at this
    exact absurd hlt (not_lt.2 this)

theorem filter_insertDescBy {α : Type} (key : α → ℚ) (x : α) (q : ℚ) :
    ∀ l : List α, l.Pairwise (fun a b => key b ≤ key a) →
    (insertDescBy key x l).filter (fun y => decide (key y = q))
      = l.filter (fun y => decide (key y = q))
        ++ (if key x = q then [x] else []) := by
  intro l
  induction l with
  | nil =>
      intro _
      by_cases h : key x = q <;> simp [insertDescBy, List.filter, h]
  | cons z zs ih =>
      intro hp
      rcases List.pairwise_cons.1 hp with ⟨hz, hzs⟩
      rw [insertDescBy]
      by_cases h : key x ≤ key z
      · rw [if_pos h]
        rw [List.filter_cons, List.filter_cons, ih hzs]
        by_cases hzq : key z = q
        · simp [hzq]
        · simp [hzq]
      · rw [if_neg h]
        have hlt : key z < key x := lt_of_not_le h
        by_cases hxq : key x = q
        · have hnil : (z :: zs).filter (fun y => decide (key y = q)) = [] := by
            rw [← hxq]
            exact filter_key_nil_of_lt key x z zs hp hlt
          rw [List.filter_cons, hnil]
          simp [hxq]
        · simp only [List.filter_cons, decide_eq_true_eq, hxq, if_false]
          simp

theorem filter_sortDescBy {α : Type} (key : α → ℚ) (q : ℚ) (l : List α) :
    (sortDescBy key l).filter (fun y => decide (key y = q))
      = l.filter (fun y => decide (key y = q)) := by
  have hgen : ∀ (l acc : List α), acc.Pairwise (fun a b => key b ≤ key a) →
      (l.foldl (fun acc x => insertDescBy key x acc) acc).filter
          (fun y => decide (key y = q))
        = acc.filter (fun y => decide (key y = q))
          ++ l.filter (fun y => decide (key y = q)) := by
    intro l
    induction l with
    | nil => intro acc _; simp
    | cons x xs ih =>
        intro acc h
        rw [List.foldl_cons, ih _ (pairwise_insertDescBy key x acc h),
          filter_insertDescBy key x q acc h]
        by_cases hxq : key x = q
        · simp [List.filter_cons, hxq]
        · simp [List.filter_cons, hxq]
  rw [sortDescBy, hgen l [] (by simp)]
  simp

/-- C9 (counterexample): two candidates with equal scores are returned in
candidate-list order, not location-name order — with the empty normalization
table both of ["나동", "가동"] score 0, and the output keeps 나동 first even
though 가동 precedes it lexicographically. -/
theorem ranker_tie_order_cex :
    calculate_final_scores ["나동", "가동"] [] {} = [("나동", 0), ("가동", 0)] ∧
    "가동".data < "나동".data := by
  constructor
  · norm_num [calculate_final_scores, adjust_weights_by_preferences, configWeights, aset,
      sumVals, finalScoreOf, sumQ, getQ, alookup, sortDescBy, insertDescBy]
  · decide

/-- C9 (amended): the recommendation list is sorted in descending order of
the scalar score (the weighted sum of normalized objective values under the
preference-adjusted weight vector); candidates with equal scores keep their
candidate-list order (Python's sort is stable and consults only the score,
not the location name); and the adjusted weight vector is re-normalized to
sum exactly to 1 before scoring. -/
theorem ranker_sorted_stable_weights :
    (∀ (cands : List Node) (normalized : List (Node × List (Node × ℚ)))
       (p : UserPreferences),
      (calculate_final_scores cands normalized p).Pairwise (fun x y => y.2 ≤ x.2)) ∧
    (∀ (cands : List Node) (normalized : List (Node × List (Node × ℚ)))
       (p : UserPreferences) (q : ℚ),
      (calculate_final_scores cands normalized p).filter (fun x => decide (x.2 = q))
        = (cands.map (fun d =>
            (d, finalScoreOf normalized (adjust_weights_by_preferences p) d))).filter
            (fun x => decide (x.2 = q))) ∧
    (∀ p : UserPreferences, sumVals (adjust_weights_by_preferences p) = 1) := by
  refine ⟨?_, ?_, ?_⟩
  · intro cands normalized p
    exact pairwise_sortDescBy _ _
  · intro cands normalized p q
    exact filter_sortDescBy _ q _
  · rintro ⟨mr, xr, gt, cl, sw, pt, wp, pr, ms⟩
    cases sw <;> cases pt <;> cases wp <;>
      norm_num [adjust_weights_by_preferences, configWeights, aset, sumVals]

end CafeOpt
